import Mathlib

/-!
Verification of the cryptographic core of the Secure-Client-Server-CryptedChat
repository: a shallow embedding in Lean 4 of the cipher codecs in `ciphers.py`
and the Caesar cryptanalysis engine in `caesar_breaker.py`, together with
proofs and refutations of the specification's claims about them.

Modelling conventions:
* Python strings are `List Char`; Python `bytes` values are `List Nat`.
* Python `int` is `Int` (or `Nat` where the program only ever passes
  nonnegative values); Python `%` on integers is `Int.emod`, which has the
  same sign convention for positive moduli.
* Python floats in the scoring code are modelled exactly as `ℚ`, with the
  float `inf` modelled as `none : Option ℚ`.
* Exceptions (`KeyError`, `ValueError`, `ZeroDivisionError`) are modelled by
  `Option`-valued functions returning `none`.
* `random`-dependent functions take the drawn values as explicit arguments
  (the list of Miller-Rabin bases, the shuffled alphabet).
* The Unicode-aware Python predicates `str.isupper` / `str.islower` are
  modelled on the ASCII range, over which all Caesar-related claims are
  stated; `str.isalpha` is additionally modelled on the Latin-1 letter range
  so that accented letters such as 'é' are covered.
-/

/-- Python `c.isupper()` restricted to ASCII: 'A' ≤ c ≤ 'Z'. -/
def pyIsUpper (c : Char) : Bool := 65 ≤ c.toNat && c.toNat ≤ 90

/-- Python `c.islower()` restricted to ASCII: 'a' ≤ c ≤ 'z'. -/
def pyIsLower (c : Char) : Bool := 97 ≤ c.toNat && c.toNat ≤ 122

/-- Python `c.isalpha()` on the ASCII and Latin-1 ranges: the 52 ASCII
letters together with the accented Latin-1 letters U+00C0–U+00FF minus the
two operators × (U+00D7) and ÷ (U+00F7).  Full Unicode is out of scope; the
claims only exercise these ranges. -/
def pyIsAlpha (c : Char) : Bool :=
  pyIsUpper c || pyIsLower c ||
    (192 ≤ c.toNat && c.toNat ≤ 255 && c.toNat ≠ 215 && c.toNat ≠ 247)

/-- A character of the 26+26 letter ASCII alphabet. -/
def isAsciiLetter (c : Char) : Bool := pyIsUpper c || pyIsLower c

/-- Python `c.upper()` on ASCII characters (others unchanged). -/
def pyToUpper (c : Char) : Char :=
  if pyIsLower c then Char.ofNat (c.toNat - 32) else c

/-- Python `c.lower()` on ASCII characters (others unchanged). -/
def pyToLower (c : Char) : Char :=
  if pyIsUpper c then Char.ofNat (c.toNat + 32) else c

/-- Python whitespace for `str.split()`: space, tab, newline, vertical tab,
form feed, carriage return. -/
def pyIsSpace (c : Char) : Bool :=
  c = ' ' || c = '\t' || c = '\n' || c = Char.ofNat 11 || c = Char.ofNat 12 || c = '\r'

/-! ### Caesar cipher (`ciphers.py`, `caesar_encrypt` / `caesar_decrypt`) -/

/-- The per-character shift of `caesar_encrypt`: uppercase letters are
rotated inside A–Z, lowercase inside a–z, everything else is unchanged.
`shift` is a Python integer (possibly negative); Python `%` on a positive
modulus is `Int.emod`. -/
def caesarShiftChar (shift : Int) (c : Char) : Char :=
  if pyIsUpper c then
    Char.ofNat ((((c.toNat : Int) + shift - 65) % 26 + 65).toNat)
  else if pyIsLower c then
    Char.ofNat ((((c.toNat : Int) + shift - 97) % 26 + 97).toNat)
  else c

/-- `caesar_encrypt(text, shift)` from `ciphers.py`. -/
def caesar_encrypt (text : List Char) (shift : Int) : List Char :=
  text.map (caesarShiftChar shift)

/-- `caesar_decrypt(text, shift)` from `ciphers.py`: encryption with the
negated shift. -/
def caesar_decrypt (text : List Char) (shift : Int) : List Char :=
  caesar_encrypt text (-shift)

/-- `caesar_decrypt_with_shift(text, shift)` from `caesar_breaker.py`: the
breaker's own reimplementation, subtracting the shift character-wise. -/
def caesar_decrypt_with_shift (text : List Char) (shift : Int) : List Char :=
  text.map (fun c =>
    if pyIsUpper c then
      Char.ofNat ((((c.toNat : Int) - shift - 65) % 26 + 65).toNat)
    else if pyIsLower c then
      Char.ofNat ((((c.toNat : Int) - shift - 97) % 26 + 97).toNat)
    else c)

/-! ### RSA codec (`ciphers.py`, `rsa_encrypt` / `rsa_decrypt`)

`rsa_encrypt` UTF-8-encodes the message and maps each byte `b` to
`pow(b, e, n)`; for ASCII text the UTF-8 bytes are exactly the code points.
`rsa_decrypt` maps each integer back through `pow(c, d, n)` and decodes the
bytes; `Char.ofNat` models the byte-to-character decoding of ASCII bytes. -/

/-- `rsa_encrypt(message, public_key)` on ASCII text. -/
def rsa_encrypt (message : List Char) (publicKey : Nat × Nat) : List Nat :=
  message.map (fun c => c.toNat ^ publicKey.1 % publicKey.2)

/-- `rsa_decrypt(encrypted_message, private_key)` landing in ASCII text. -/
def rsa_decrypt (encrypted : List Nat) (privateKey : Nat × Nat) : List Char :=
  encrypted.map (fun b => Char.ofNat (b ^ privateKey.1 % privateKey.2))

/-! ### Extended Euclid and modular inverse (`ciphers.py`) -/

/-- Recursion core of `extended_gcd(a, b)`.  The Python function recurses on
`(b % a, a)`, so the first argument strictly decreases; `fuel` bounds that
recursion depth (any `fuel > a` is enough) and makes the definition
structurally recursive. -/
def extendedGcdAux : Nat → Nat → Nat → Nat × Int × Int
  | 0, _, b => (b, 0, 1)
  | fuel + 1, a, b =>
    if a = 0 then (b, 0, 1)
    else
      let r := extendedGcdAux fuel (b % a) a
      (r.1, r.2.2 - ((b / a : Nat) : Int) * r.2.1, r.2.1)

/-- `extended_gcd(a, b)` from `ciphers.py`: returns `(g, x, y)` with
`g = a*x + b*y`.  The program only ever calls it on nonnegative integers. -/
def extended_gcd (a b : Nat) : Nat × Int × Int :=
  extendedGcdAux (a + 1) a b

/-- `mod_inverse(e, phi)` from `ciphers.py`.  `none` models an exception:
the explicit `ValueError` when the gcd is not 1, and the
`ZeroDivisionError` that Python's `x % phi` raises when `phi = 0`. -/
def mod_inverse (e phi : Nat) : Option Int :=
  if (extended_gcd e phi).1 ≠ 1 then none
  else if phi = 0 then none
  else some ((extended_gcd e phi).2.1 % (phi : Int))

/-! ### Miller-Rabin primality test (`ciphers.py`, `is_prime`) -/

/-- Core of the `while d % 2 == 0` loop writing `n-1 = 2^r * d`: repeatedly
halves while even, counting the factors of two.  `fuel` bounds the number of
iterations (any `fuel ≥ d` is enough since `d` at least halves each time);
the `d ≠ 0` guard is unreachable on the program's inputs (`d = n-1 ≥ 4`). -/
def factorTwosAux : Nat → Nat → Nat × Nat
  | 0, d => (0, d)
  | fuel + 1, d =>
    if d % 2 = 0 ∧ d ≠ 0 then
      let r := factorTwosAux fuel (d / 2)
      (r.1 + 1, r.2)
    else (0, d)

/-- `r, d = 0, n - 1; while d % 2 == 0: r += 1; d //= 2` from `is_prime`. -/
def factorTwos (d : Nat) : Nat × Nat := factorTwosAux d d

/-- The inner `for _ in range(r - 1)` squaring loop of `is_prime`: squares
`x` up to `t` times looking for `n - 1`; `false` means the `else` branch of
the `for` runs (`return False`). -/
def mrSquareLoop (n : Nat) : Nat → Nat → Bool
  | 0, _ => false
  | t + 1, x =>
    let x2 := x ^ 2 % n
    if x2 = n - 1 then true else mrSquareLoop n t x2

/-- One witness round of `is_prime` for the drawn base `a`:
`x = pow(a, d, n)`; accept if `x` is `1` or `n-1`, otherwise run the
squaring loop `r - 1` times. -/
def mrRound (n d r a : Nat) : Bool :=
  let x := a ^ d % n
  if x = 1 ∨ x = n - 1 then true else mrSquareLoop n (r - 1) x

/-- `is_prime(n, k)` from `ciphers.py` with the `k` random draws
`a = random.randrange(2, n - 1)` made explicit as the list `bases`
(each drawn base lies in `[2, n-2]`). -/
def is_prime (n : Nat) (bases : List Nat) : Bool :=
  if n < 2 then false
  else if n = 2 ∨ n = 3 then true
  else if n % 2 = 0 then false
  else
    let rd := factorTwos (n - 1)
    bases.all (fun a => mrRound n rd.2 rd.1 a)

/-! ### Substitution cipher (`ciphers.py`) -/

/-- Lookup in a Python dict built from the association list `ps` in
insertion order: repeated keys are silently overwritten, so the *last*
binding wins.  `none` models a `KeyError`. -/
def pyDictGet (ps : List (Char × Char)) (c : Char) : Option Char :=
  (ps.filterMap (fun p => if p.1 = c then some p.2 else none)).getLast?

/-- The character loop shared by `substitution_encrypt` and
`substitution_decrypt`: build the output string character by character,
propagating a `KeyError` (`none`) raised by any lookup. -/
def optionMapAll (f : Char → Option Char) : List Char → Option (List Char)
  | [] => some []
  | c :: rest =>
    match f c with
    | none => none
    | some b => (optionMapAll f rest).map (fun l => b :: l)

/-- `generate_substitution_key()` from `ciphers.py`, with the result of
`random.shuffle` passed explicitly: for each `i` the dict maps
`alphabet[i] ↦ shuffled[i]` and `alphabet[i].lower() ↦ shuffled[i].lower()`. -/
def generate_substitution_key (shuffled : List Char) : List (Char × Char) :=
  (List.range 26).flatMap (fun i =>
    let u := Char.ofNat (65 + i)
    [(u, shuffled.getD i ' '), (pyToLower u, pyToLower (shuffled.getD i ' '))])

/-- `substitution_encrypt(text, key)` from `ciphers.py`: alphabetic
characters go through `key[char]` (a missing key raises `KeyError`),
everything else passes through. -/
def substitution_encrypt (text : List Char) (key : List (Char × Char)) :
    Option (List Char) :=
  optionMapAll (fun c => if pyIsAlpha c then pyDictGet key c else some c) text

/-- `substitution_decrypt(text, key)` from `ciphers.py`: builds
`reverse_key = {v: k for k, v in key.items()}` — a plain dict comprehension
in which colliding values are silently overwritten (last binding wins) —
then maps alphabetic characters through it. -/
def substitution_decrypt (text : List Char) (key : List (Char × Char)) :
    Option (List Char) :=
  let reverseKey := key.map (fun p => (p.2, p.1))
  optionMapAll (fun c => if pyIsAlpha c then pyDictGet reverseKey c else some c) text

/-! ### Columnar transposition cipher (`ciphers.py`) -/

/-- Stable insertion of a character into a sorted list, used to model
Python's (stable) `sorted(list(key))`. -/
def insChar (x : Char) : List Char → List Char
  | [] => [x]
  | y :: l => if x ≤ y then x :: y :: l else y :: insChar x l

/-- Python `sorted(list(key))`: stable sort by code point. -/
def sortChars : List Char → List Char
  | [] => []
  | x :: l => insChar x (sortChars l)

/-- Stable insertion of an indexed character, comparing by the character
only, used to model Python's stable `sorted(enumerate(key), key=...)`:
an element coming earlier in the input is placed before equal elements. -/
def insPair (x : Nat × Char) : List (Nat × Char) → List (Nat × Char)
  | [] => [x]
  | y :: l => if x.2 ≤ y.2 then x :: y :: l else y :: insPair x l

/-- Python `sorted(enumerate(key), key=lambda x: x[1])` (stable). -/
def stableSortPairs : List (Nat × Char) → List (Nat × Char)
  | [] => []
  | x :: l => insPair x (stableSortPairs l)

/-- Python `list.index(x)`: the first index of `x` (the program only calls
it on members). -/
def pyIndex {α : Type} [DecidableEq α] : List α → α → Nat
  | [], _ => 0
  | a :: l, x => if a = x then 0 else pyIndex l x + 1

/-- Python `key.isdigit()` (ASCII digits): nonempty and all digits. -/
def pyIsDigitStr (key : List Char) : Bool :=
  !key.isEmpty && key.all (fun c => 48 ≤ c.toNat && c.toNat ≤ 57)

/-- The word-key-to-digit-string conversion shared by
`transposition_encrypt` and `transposition_decrypt`: a non-digit key is
replaced by `str(sorted(key).index(char) + 1)` for each character,
concatenated.  `Nat.toDigits 10` models Python `str` on naturals.  Note the
rank strings have more than one digit as soon as the key has 10 or more
characters. -/
def convertKey (key : List Char) : List Char :=
  if pyIsDigitStr key then key
  else
    (key.map (fun c => Nat.toDigits 10 (pyIndex (sortChars key) c + 1))).flatten

/-- `transposition_encrypt(text, key)` from `ciphers.py`: pad with 'X' to a
multiple of the column count, lay the text row-major into a grid of
`ceil(len/num_cols)` rows, then read the columns in the stable sorted key
order.  The grid cell `(r, j)` is `padded[r * num_cols + j]`; `getD` is the
(never hit) totalisation of that indexing.  The empty key, for which Python
raises `ZeroDivisionError`, is excluded by hypothesis in every theorem. -/
def transposition_encrypt (text key : List Char) : List Char :=
  let numKey := convertKey key
  let numCols := numKey.length
  let numRows := (text.length + numCols - 1) / numCols
  let padded := text ++ List.replicate (numCols * numRows - text.length) 'X'
  let keyOrder := stableSortPairs numKey.enum
  keyOrder.flatMap (fun p =>
    (List.range numRows).map (fun r => padded.getD (r * numCols + p.1) 'X'))

/-- Python `result.rstrip('X')`. -/
def rstripX (l : List Char) : List Char :=
  (l.reverse.dropWhile (fun c => c = 'X')).reverse

/-- `transposition_decrypt(text, key)` from `ciphers.py`.  The imperative
loop fills the grid column by column in sorted key order, consuming the
ciphertext sequentially, so column `j` receives the ciphertext slice
starting at `pos(j) * num_rows` where `pos(j)` is the position of `j` in
the sorted key order; the grid is then read row by row and the trailing
padding stripped with `rstrip('X')`. -/
def transposition_decrypt (text key : List Char) : List Char :=
  let numKey := convertKey key
  let numCols := numKey.length
  let numRows := (text.length + numCols - 1) / numCols
  let cols := (stableSortPairs numKey.enum).map Prod.fst
  rstripX ((List.range numRows).flatMap (fun i =>
    (List.range numCols).map (fun j => text.getD (pyIndex cols j * numRows + i) 'X')))

/-- The plaintext organically ends with the filler character 'X'. -/
def endsWithX (text : List Char) : Bool := text.getLast? = some 'X'

/-! ### Frequency model (`caesar_breaker.py`) -/

/-- The two supported languages of the breaker. -/
inductive Lang where
  | english
  | french
deriving DecidableEq

/-- The `ENGLISH_FREQ` table (percentages, exact rationals). -/
def ENGLISH_FREQ : List (Char × ℚ) :=
  [('E', 12.70), ('T', 9.06), ('A', 8.17), ('O', 7.51), ('I', 6.97),
   ('N', 6.75), ('S', 6.33), ('H', 6.09), ('R', 5.99), ('D', 4.25),
   ('L', 4.03), ('C', 2.78), ('U', 2.76), ('M', 2.41), ('W', 2.36),
   ('F', 2.23), ('G', 2.02), ('Y', 1.97), ('P', 1.93), ('B', 1.29),
   ('V', 0.98), ('K', 0.77), ('J', 0.15), ('X', 0.15), ('Q', 0.10), ('Z', 0.07)]

/-- The `FRENCH_FREQ` table (percentages, exact rationals). -/
def FRENCH_FREQ : List (Char × ℚ) :=
  [('E', 14.72), ('A', 7.64), ('I', 7.46), ('S', 7.95), ('N', 7.10),
   ('R', 6.55), ('T', 7.24), ('O', 5.80), ('L', 5.46), ('U', 6.31),
   ('D', 3.67), ('C', 3.26), ('M', 2.97), ('P', 3.02), ('G', 0.97),
   ('B', 0.90), ('V', 1.63), ('H', 0.74), ('F', 1.06), ('Q', 1.36),
   ('Y', 0.31), ('X', 0.39), ('J', 0.45), ('K', 0.05), ('W', 0.04), ('Z', 0.12)]

/-- `ENGLISH_WORDS` from `caesar_breaker.py` (a Python set literal;
membership is all that is ever used). -/
def ENGLISH_WORDS : List (List Char) :=
  ["the", "be", "to", "of", "and", "a", "in", "that", "have", "i",
   "it", "for", "not", "on", "with", "he", "as", "you", "do", "at",
   "this", "but", "his", "by", "from", "they", "we", "say", "her", "she",
   "or", "an", "will", "my", "one", "all", "would", "there", "their", "what",
   "so", "up", "out", "if", "about", "who", "get", "which", "go", "me",
   "when", "make", "can", "like", "time", "no", "just", "him", "know", "take",
   "people", "into", "year", "your", "good", "some", "could", "them", "see", "other",
   "than", "then", "now", "look", "only", "come", "its", "over", "think", "also",
   "back", "after", "use", "two", "how", "our", "work", "first", "well", "way",
   "even", "new", "want", "because", "any", "these", "give", "day", "most", "us"
  ].map String.toList

/-- `FRENCH_WORDS` from `caesar_breaker.py` (the source set literal repeats
'que' and 'en'; set membership is unaffected). -/
def FRENCH_WORDS : List (List Char) :=
  ["le", "de", "un", "être", "et", "à", "il", "avoir", "ne", "je",
   "son", "que", "se", "qui", "ce", "dans", "en", "du", "elle", "au",
   "pour", "pas", "que", "vous", "par", "sur", "faire", "plus", "dire", "me",
   "on", "mon", "lui", "nous", "comme", "mais", "pouvoir", "avec", "tout", "y",
   "aller", "voir", "en", "sans", "bien", "où", "notre", "leur", "dont", "autre"
  ].map String.toList

/-- The frequency table selected by `language == 'english'`. -/
def freqTable : Lang → List (Char × ℚ)
  | Lang.english => ENGLISH_FREQ
  | Lang.french => FRENCH_FREQ

/-- The word set selected by `language == 'english'`. -/
def wordSet : Lang → List (List Char)
  | Lang.english => ENGLISH_WORDS
  | Lang.french => FRENCH_WORDS

/-- Python `freq_table.get(letter, 0)`. -/
def tableGet (t : List (Char × ℚ)) (c : Char) : ℚ :=
  ((t.find? (fun p => p.1 = c)).map Prod.snd).getD 0

/-- `string.ascii_uppercase` as a character list. -/
def alphabetU : List Char := "ABCDEFGHIJKLMNOPQRSTUVWXYZ".toList

/-- `calculate_frequency_score(text, language)` from `caesar_breaker.py`:
counts the alphabetic characters of the upper-cased text, returns `inf`
(modelled `none`) when there are none, and otherwise the chi-squared
statistic against the language table, skipping letters whose expected
frequency is not positive. -/
def calculate_frequency_score (text : List Char) (lang : Lang) : Option ℚ :=
  let letters := (text.map pyToUpper).filter pyIsAlpha
  let total := letters.length
  if total = 0 then none
  else
    some ((alphabetU.map (fun L =>
      let expected := tableGet (freqTable lang) L / 100 * total
      let observed : ℚ := letters.count L
      if 0 < expected then (observed - expected) ^ 2 / expected else 0)).sum)

/-- The accumulator version of Python `str.split()`: scan the characters,
collecting the current in-progress token (reversed) in `acc`; whitespace
closes the token, and empty tokens are never produced. -/
def pySplitAux : List Char → List Char → List (List Char)
  | [], acc => if acc.isEmpty then [] else [acc.reverse]
  | c :: rest, acc =>
    if pyIsSpace c then
      if acc.isEmpty then pySplitAux rest [] else acc.reverse :: pySplitAux rest []
    else pySplitAux rest (c :: acc)

/-- Python `text.split()`: whitespace-delimited tokens, no empties. -/
def pySplit (text : List Char) : List (List Char) := pySplitAux text []

/-- `count_dictionary_words(text, language)` from `caesar_breaker.py`:
lowercase, split on whitespace, count the tokens present in the language's
common-word set. -/
def count_dictionary_words (text : List Char) (lang : Lang) : Nat :=
  ((pySplit (text.map pyToLower)).filter (fun w => w ∈ wordSet lang)).length

/-! ### The Caesar breaker (`caesar_breaker.py`) -/

/-- The float comparison `a < b` on scores, where `none` is `inf`:
`inf < inf` is false, any finite value is below `inf`. -/
def scoreLtB : Option ℚ → Option ℚ → Bool
  | some a, some b => a < b
  | some _, none => true
  | none, _ => false

/-- The (derived) `a ≤ b` on scores: not `b < a`. -/
def scoreLeB (a b : Option ℚ) : Bool := !scoreLtB b a

/-- `combined_score = freq_score - (word_count * 10)`; subtracting a finite
number from the float `inf` leaves `inf`. -/
def combOf (freq : Option ℚ) (words : Nat) : Option ℚ :=
  freq.map (fun q => q - words * 10)

/-- One entry of the `results` list built by `break_caesar_frequency`. -/
structure CandRec where
  shift : Nat
  text : List Char
  freq : Option ℚ
  words : Nat
  comb : Option ℚ
deriving DecidableEq

/-- The candidate record for a given shift. -/
def candAt (ct : List Char) (lang : Lang) (s : Nat) : CandRec :=
  let dec := caesar_decrypt_with_shift ct (s : Int)
  let fs := calculate_frequency_score dec lang
  let w := count_dictionary_words dec lang
  ⟨s, dec, fs, w, combOf fs w⟩

/-- The `results` list over all 26 shifts. -/
def candidates (ct : List Char) (lang : Lang) : List CandRec :=
  (List.range 26).map (candAt ct lang)

/-- One step of the running-best update
`if combined_score < best_score: ...` (state: shift, score, decryption). -/
def scanStep (best : Nat × Option ℚ × List Char) (r : CandRec) :
    Nat × Option ℚ × List Char :=
  if scoreLtB r.comb best.2.1 then (r.shift, r.comb, r.text) else best

/-- Stable insertion of a record into a list sorted by combined score. -/
def insRec (x : CandRec) : List CandRec → List CandRec
  | [] => [x]
  | y :: l => if scoreLeB x.comb y.comb then x :: y :: l else y :: insRec x l

/-- Python's stable `sorted(results, key=lambda x: x['combined_score'])`. -/
def isortRecs : List CandRec → List CandRec
  | [] => []
  | x :: l => insRec x (isortRecs l)

/-- A default record (only used to totalise `sorted_results[0]`, which the
source accesses on the always-nonempty 26-entry list). -/
def defaultRec : CandRec := ⟨0, [], none, 0, none⟩

/-- `break_caesar_frequency(encrypted_text, language)` from
`caesar_breaker.py`: evaluate all 26 shifts, keep the running best under
strict `<` starting from `(0, inf, "")`, sort the records by combined score
(stably), and report `(best_decryption, best_shift, confidence)` where
`confidence = sorted_results[0].word_count / len(best_decryption.split()) * 100`
guarded to `0` when `best_decryption` has no tokens. -/
def break_caesar_frequency (ct : List Char) (lang : Lang) :
    List Char × Nat × ℚ :=
  let results := candidates ct lang
  let best := results.foldl scanStep (0, none, [])
  let sortedResults := isortRecs results
  let topWords := (sortedResults.headD defaultRec).words
  let tokens := pySplit best.2.2
  let confidence : ℚ :=
    if tokens.isEmpty then 0 else (topWords : ℚ) / (tokens.length : ℚ) * 100
  (best.2.2, best.1, confidence)

/-- `break_caesar_brute_force(encrypted_text)` from `caesar_breaker.py`:
the 26 pairs `(shift, caesar_decrypt_with_shift(text, shift))`, shifts
ascending. -/
def break_caesar_brute_force (ct : List Char) : List (Nat × List Char) :=
  (List.range 26).map (fun s => (s, caesar_decrypt_with_shift ct (s : Int)))


/-! ## Theorems -/

/-! ### Character-level helper lemmas -/

set_option maxRecDepth 2000 in
theorem char_toNat_ofNat_lt : ∀ m : Nat, m < 256 → (Char.ofNat m).toNat = m := by
  decide

theorem char_eq_of_toNat_eq {c₁ c₂ : Char} (h : c₁.toNat = c₂.toNat) : c₁ = c₂ := by
  rw [← Char.ofNat_toNat c₁, h, Char.ofNat_toNat]

/-- The Caesar shift sends an ASCII uppercase letter to the uppercase letter
whose code is `(c + shift - 65) % 26 + 65`. -/
theorem caesarShiftChar_upper (s : Int) (c : Char) (hc : pyIsUpper c = true) :
    (caesarShiftChar s c).toNat = ((((c.toNat : Int) + s - 65) % 26 + 65)).toNat ∧
      pyIsUpper (caesarShiftChar s c) = true := by
  have hlt : (((c.toNat : Int) + s - 65) % 26) < 26 :=
    Int.emod_lt_of_pos _ (by norm_num)
  have hge : 0 ≤ (((c.toNat : Int) + s - 65) % 26) :=
    Int.emod_nonneg _ (by norm_num)
  have htn : ((((c.toNat : Int) + s - 65) % 26 + 65)).toNat < 256 := by omega
  have hdef : caesarShiftChar s c =
      Char.ofNat ((((c.toNat : Int) + s - 65) % 26 + 65)).toNat := by
    simp [caesarShiftChar, hc]
  rw [hdef]
  rw [char_toNat_ofNat_lt _ htn]
  refine ⟨rfl, ?_⟩
  simp only [pyIsUpper, char_toNat_ofNat_lt _ htn, Bool.and_eq_true, decide_eq_true_eq]
  omega

/-- The Caesar shift sends an ASCII lowercase letter to the lowercase letter
whose code is `(c + shift - 97) % 26 + 97`. -/
theorem caesarShiftChar_lower (s : Int) (c : Char) (hc : pyIsLower c = true) :
    (caesarShiftChar s c).toNat = ((((c.toNat : Int) + s - 97) % 26 + 97)).toNat ∧
      pyIsLower (caesarShiftChar s c) = true := by
  have hnu : pyIsUpper c = false := by
    simp only [pyIsLower, Bool.and_eq_true, decide_eq_true_eq] at hc
    simp only [pyIsUpper, Bool.and_eq_false_iff, decide_eq_false_iff_not]
    omega
  have hlt : (((c.toNat : Int) + s - 97) % 26) < 26 :=
    Int.emod_lt_of_pos _ (by norm_num)
  have hge : 0 ≤ (((c.toNat : Int) + s - 97) % 26) :=
    Int.emod_nonneg _ (by norm_num)
  have htn : ((((c.toNat : Int) + s - 97) % 26 + 97)).toNat < 256 := by omega
  have hdef : caesarShiftChar s c =
      Char.ofNat ((((c.toNat : Int) + s - 97) % 26 + 97)).toNat := by
    simp [caesarShiftChar, hnu, hc]
  rw [hdef]
  rw [char_toNat_ofNat_lt _ htn]
  refine ⟨rfl, ?_⟩
  simp only [pyIsLower, char_toNat_ofNat_lt _ htn, Bool.and_eq_true, decide_eq_true_eq]
  omega

/-- The Caesar shift leaves non-alphabetic characters unchanged. -/
theorem caesarShiftChar_other (s : Int) (c : Char)
    (hu : pyIsUpper c = false) (hl : pyIsLower c = false) :
    caesarShiftChar s c = c := by
  simp [caesarShiftChar, hu, hl]

/-- Shifting by `s` and then by `-s` restores any character whose code is
below 256 (in particular any printable ASCII character). -/
theorem caesar_shift_inv (s : Int) (c : Char) (hc : c.toNat < 256) :
    caesarShiftChar (-s) (caesarShiftChar s c) = c := by
  by_cases hu : pyIsUpper c = true
  · obtain ⟨hval, hup⟩ := caesarShiftChar_upper s c hu
    obtain ⟨hval2, _⟩ := caesarShiftChar_upper (-s) _ hup
    apply char_eq_of_toNat_eq
    rw [hval2, hval]
    have hcu : 65 ≤ c.toNat ∧ c.toNat ≤ 90 := by
      simpa [pyIsUpper] using hu
    have h1 : 0 ≤ (((c.toNat : Int) + s - 65) % 26) := Int.emod_nonneg _ (by norm_num)
    have h2 : (((c.toNat : Int) + s - 65) % 26) < 26 := Int.emod_lt_of_pos _ (by norm_num)
    omega
  · by_cases hl : pyIsLower c = true
    · obtain ⟨hval, hlo⟩ := caesarShiftChar_lower s c hl
      obtain ⟨hval2, _⟩ := caesarShiftChar_lower (-s) _ hlo
      apply char_eq_of_toNat_eq
      rw [hval2, hval]
      have hcl : 97 ≤ c.toNat ∧ c.toNat ≤ 122 := by
        simpa [pyIsLower] using hl
      have h1 : 0 ≤ (((c.toNat : Int) + s - 97) % 26) := Int.emod_nonneg _ (by norm_num)
      have h2 : (((c.toNat : Int) + s - 97) % 26) < 26 := Int.emod_lt_of_pos _ (by norm_num)
      omega
    · rw [caesarShiftChar_other s c (by simpa using hu) (by simpa using hl),
        caesarShiftChar_other (-s) c (by simpa using hu) (by simpa using hl)]

/-- C1: For every printable-ASCII text and every integer shift (negative
shifts included; the shift is normalised by the `% 26` in the code),
`caesar_decrypt(caesar_encrypt(text, shift), shift) = text`, and character
by character the encryption preserves case and leaves every non-alphabetic
character unchanged. -/
theorem claim_C1_caesar_roundtrip (text : List Char) (shift : Int)
    (h : ∀ c ∈ text, 32 ≤ c.toNat ∧ c.toNat ≤ 126) :
    caesar_decrypt (caesar_encrypt text shift) shift = text ∧
    ∀ c ∈ text,
      (pyIsUpper c = true → pyIsUpper (caesarShiftChar shift c) = true) ∧
      (pyIsLower c = true → pyIsLower (caesarShiftChar shift c) = true) ∧
      (pyIsUpper c = false → pyIsLower c = false → caesarShiftChar shift c = c) := by
  constructor
  · unfold caesar_decrypt caesar_encrypt
    rw [List.map_map]
    have hid : ∀ c ∈ text, (caesarShiftChar (-shift) ∘ caesarShiftChar shift) c = c := by
      intro c hc
      exact caesar_shift_inv shift c (by have := h c hc; omega)
    calc text.map (caesarShiftChar (-shift) ∘ caesarShiftChar shift)
        = text.map id := List.map_congr_left hid
      _ = text := List.map_id text
  · intro c _
    refine ⟨fun hu => (caesarShiftChar_upper shift c hu).2,
      fun hl => (caesarShiftChar_lower shift c hl).2,
      fun hu hl => caesarShiftChar_other shift c hu hl⟩

/-- Witness for C1 at a concrete mixed-case, punctuated text and a negative
shift. -/
theorem claim_C1_witness :
    (∀ c ∈ "Hello, World!".toList, 32 ≤ c.toNat ∧ c.toNat ≤ 126) ∧
      caesar_decrypt (caesar_encrypt "Hello, World!".toList (-3)) (-3) =
        "Hello, World!".toList :=
  ⟨by decide, (claim_C1_caesar_roundtrip "Hello, World!".toList (-3) (by decide)).1⟩

/-! ### C6: brute force enumerates the cipher module's decryptions -/

/-- The breaker's reimplemented decrypt coincides with the cipher module's
`caesar_decrypt` (encryption by the negated shift) on every text and shift. -/
theorem caesar_decrypt_with_shift_eq (text : List Char) (s : Int) :
    caesar_decrypt_with_shift text s = caesar_decrypt text s := by
  unfold caesar_decrypt_with_shift caesar_decrypt caesar_encrypt caesarShiftChar
  apply List.map_congr_left
  intro c _
  simp only [sub_eq_add_neg]

/-- C6: `break_caesar_brute_force` returns exactly 26 pairs, shifts
ascending `0..25`, and the candidate at index `s` is
`caesar_decrypt(ciphertext, s)` from the cipher module. -/
theorem claim_C6_brute_force (ct : List Char) :
    (break_caesar_brute_force ct).length = 26 ∧
      break_caesar_brute_force ct =
        (List.range 26).map (fun s : Nat =>
          ((s, caesar_decrypt ct (s : Int)) : Nat × List Char)) := by
  constructor
  · simp [break_caesar_brute_force]
  · unfold break_caesar_brute_force
    apply List.map_congr_left
    intro s _
    rw [caesar_decrypt_with_shift_eq]

/-! ### C7: extended Euclid and modular inverse -/

/-- On sufficient fuel the recursion core computes the gcd together with a
Bezout certificate. -/
theorem extendedGcdAux_spec : ∀ (fuel a b : Nat), a < fuel →
    (extendedGcdAux fuel a b).1 = Nat.gcd a b ∧
      ((extendedGcdAux fuel a b).1 : Int) =
        a * (extendedGcdAux fuel a b).2.1 + b * (extendedGcdAux fuel a b).2.2 := by
  intro fuel
  induction fuel with
  | zero => intro a b h; omega
  | succ fuel ih =>
    intro a b h
    by_cases ha : a = 0
    · subst ha
      simp [extendedGcdAux]
    · have hrec : b % a < fuel := by
        have h1 : b % a < a := Nat.mod_lt b (by omega)
        omega
      obtain ⟨ihg, ihb⟩ := ih (b % a) a hrec
      have hgcd : Nat.gcd a b = Nat.gcd (b % a) a := Nat.gcd_rec a b
      have hdm := Nat.div_add_mod b a
      have hmod : ((b % a : Nat) : Int) =
          (b : Int) - (a : Int) * ((b / a : Nat) : Int) := by
        have hdm' : (a : Int) * ((b / a : Nat) : Int) + ((b % a : Nat) : Int) =
            (b : Int) := by exact_mod_cast hdm
        linarith
      simp only [extendedGcdAux, ha, if_false]
      refine ⟨by rw [ihg, ← hgcd], ?_⟩
      rw [ihb, hmod]
      ring

/-- `extended_gcd` returns the gcd and a Bezout certificate. -/
theorem extended_gcd_spec (a b : Nat) :
    (extended_gcd a b).1 = Nat.gcd a b ∧
      ((extended_gcd a b).1 : Int) =
        a * (extended_gcd a b).2.1 + b * (extended_gcd a b).2.2 :=
  extendedGcdAux_spec (a + 1) a b (Nat.lt_succ_self a)

/-- Counterexample to C7 as stated: `mod_inverse(1, 0)` raises
(`ZeroDivisionError` from `x % 0`) even though `gcd(1, 0) = 1`, so "raises
an error exactly when gcd(e, phi) ≠ 1" fails at `(e, phi) = (1, 0)`. -/
theorem claim_C7_counterexample :
    mod_inverse 1 0 = none ∧ Nat.gcd 1 0 = 1 := ⟨rfl, rfl⟩

/-- C7 (amended with the hypothesis `0 < phi`, forced by the
`ZeroDivisionError` counterexample at `phi = 0`): `extended_gcd` returns
`(g, x, y)` with `g = a·x + b·y`, and for positive `phi`, `mod_inverse`
raises exactly when `gcd(e, phi) ≠ 1` and otherwise returns `d` with
`0 ≤ d < phi` and `e·d ≡ 1 (mod phi)`. -/
theorem claim_C7_mod_inverse (e phi : Nat) (hphi : 0 < phi) :
    (((extended_gcd e phi).1 : Int) =
        e * (extended_gcd e phi).2.1 + phi * (extended_gcd e phi).2.2) ∧
    (mod_inverse e phi = none ↔ Nat.gcd e phi ≠ 1) ∧
    (∀ d : Int, mod_inverse e phi = some d →
      0 ≤ d ∧ d < phi ∧ ((e : Int) * d) % phi = 1 % phi) := by
  obtain ⟨hg, hbez⟩ := extended_gcd_spec e phi
  refine ⟨hbez, ?_, ?_⟩
  · unfold mod_inverse
    rw [hg]
    by_cases h1 : Nat.gcd e phi = 1
    · rw [if_neg (by simp [h1]), if_neg (by omega : ¬ phi = 0)]
      simp [h1]
    · simp [h1]
  · intro d hd
    unfold mod_inverse at hd
    by_cases h1 : (extended_gcd e phi).1 = 1
    · rw [if_neg (by simp [h1]), if_neg (by omega : ¬ phi = 0),
        Option.some.injEq] at hd
      subst hd
      have hphiZ : (0 : Int) < (phi : Int) := by exact_mod_cast hphi
      refine ⟨Int.emod_nonneg _ (by omega), Int.emod_lt_of_pos _ hphiZ, ?_⟩
      have hx : (e : Int) * ((extended_gcd e phi).2.1 % phi) % phi =
          (e : Int) * (extended_gcd e phi).2.1 % phi := by
        conv_lhs => rw [Int.mul_emod, Int.emod_emod_of_dvd _ dvd_rfl, ← Int.mul_emod]
      rw [hx]
      have hlin : (e : Int) * (extended_gcd e phi).2.1 =
          1 - phi * (extended_gcd e phi).2.2 := by
        rw [h1] at hbez
        push_cast at hbez
        linarith
      rw [hlin, Int.sub_emod, Int.mul_emod_right]
      simp
    · simp [h1] at hd

/-- Witness for C7 at `e = 3`, `phi = 26` (where `gcd = 1` and the inverse
is returned). -/
theorem claim_C7_witness :
    (0 < 26) ∧ (mod_inverse 3 26 = none ↔ Nat.gcd 3 26 ≠ 1) :=
  ⟨by decide, (claim_C7_mod_inverse 3 26 (by decide)).2.1⟩

/-! ### C4: substitution decrypt on non-bijective keys -/

/-- The character loop raises (`none`) exactly when some character's lookup
raises. -/
theorem optionMapAll_eq_none_iff (f : Char → Option Char) (l : List Char) :
    optionMapAll f l = none ↔ ∃ c ∈ l, f c = none := by
  induction l with
  | nil => simp [optionMapAll]
  | cons c rest ih =>
    cases hfc : f c with
    | none => simp [optionMapAll, hfc]
    | some b =>
      simp only [optionMapAll, hfc, Option.map_eq_none', ih]
      constructor
      · intro h
        obtain ⟨c', hc', hfc'⟩ := h
        exact ⟨c', List.mem_cons_of_mem c hc', hfc'⟩
      · intro h
        obtain ⟨c', hc', hfc'⟩ := h
        rcases List.mem_cons.mp hc' with rfl | hc'
        · rw [hfc] at hfc'
          exact absurd hfc' (by simp)
        · exact ⟨c', hc', hfc'⟩

/-- A Python dict lookup misses exactly when no binding has the key. -/
theorem pyDictGet_eq_none_iff (ps : List (Char × Char)) (c : Char) :
    pyDictGet ps c = none ↔ ∀ p ∈ ps, p.1 ≠ c := by
  unfold pyDictGet
  rw [List.getLast?_eq_none_iff, List.filterMap_eq_nil_iff]
  constructor
  · intro h p hp
    have := h p hp
    by_contra hc
    simp [hc] at this
  · intro h p hp
    simp [h p hp]

/-- Counterexample to C4 as stated: for the explicitly non-bijective key
sending both A and B to B (identity elsewhere), `substitution_decrypt`
does *not* raise on the ciphertext "B" — the dict-comprehension inversion
silently keeps the last binding and returns "B". -/
theorem claim_C4_counterexample :
    (('A', 'B') ∈ (alphabetU.map fun c => (c, if c = 'A' then 'B' else c)) ∧
      ('B', 'B') ∈ (alphabetU.map fun c => (c, if c = 'A' then 'B' else c)) ∧
      ('A' : Char) ≠ 'B') ∧
    substitution_decrypt ['B'] (alphabetU.map fun c => (c, if c = 'A' then 'B' else c)) =
      some ['B'] := by
  decide

/-- C4 (amended): `substitution_decrypt` performs no bijectivity check; the
inverse map is built with last-binding-wins overwriting, and a `KeyError`
is raised exactly when the ciphertext contains an alphabetic character that
is the image of no key entry. -/
theorem claim_C4_decrypt_keyerror (key : List (Char × Char)) (text : List Char) :
    substitution_decrypt text key = none ↔
      ∃ c ∈ text, pyIsAlpha c = true ∧ ∀ p ∈ key, p.2 ≠ c := by
  unfold substitution_decrypt
  rw [optionMapAll_eq_none_iff]
  constructor
  · intro h
    obtain ⟨c, hc, hfc⟩ := h
    by_cases ha : pyIsAlpha c = true
    · rw [if_pos ha, pyDictGet_eq_none_iff] at hfc
      refine ⟨c, hc, ha, fun p hp => ?_⟩
      have := hfc (p.2, p.1) (List.mem_map.mpr ⟨p, hp, rfl⟩)
      simpa using this
    · rw [if_neg ha] at hfc
      exact absurd hfc (by simp)
  · intro h
    obtain ⟨c, hc, ha, hmiss⟩ := h
    refine ⟨c, hc, ?_⟩
    rw [if_pos ha, pyDictGet_eq_none_iff]
    intro p hp
    obtain ⟨q, hq, rfl⟩ := List.mem_map.mp hp
    simpa using hmiss q hq

/-! ### C10: substitution and non-ASCII alphabetic characters -/

/-- Every character of `string.ascii_uppercase` is an ASCII uppercase
letter. -/
theorem alphabetU_upper : ∀ d ∈ alphabetU, pyIsUpper d = true := by decide

/-- Lowering an ASCII uppercase letter yields an ASCII lowercase letter. -/
theorem pyToLower_lower (d : Char) (hd : pyIsUpper d = true) :
    pyIsLower (pyToLower d) = true := by
  have hdu : 65 ≤ d.toNat ∧ d.toNat ≤ 90 := by simpa [pyIsUpper] using hd
  have : (Char.ofNat (d.toNat + 32)).toNat = d.toNat + 32 :=
    char_toNat_ofNat_lt _ (by omega)
  simp only [pyToLower, hd, if_pos, pyIsLower, this, Bool.and_eq_true,
    decide_eq_true_eq]
  omega

/-- The keys of a generated substitution dict, in insertion order: the 52
ASCII letters interleaved Aa Bb … Zz, independent of the shuffle. -/
theorem generate_key_fst (shuffled : List Char) :
    (generate_substitution_key shuffled).map Prod.fst =
      "AaBbCcDdEeFfGgHhIiJjKkLlMmNnOoPpQqRrSsTtUuVvWwXxYyZz".toList := by
  unfold generate_substitution_key
  rw [List.map_flatMap]
  simp only [List.map_cons, List.map_nil]
  decide

/-- C10: on any text containing a non-ASCII alphabetic character (such as
'é', which passes `isalpha` but is no key of the 52-entry dict), both
`substitution_encrypt` and `substitution_decrypt` raise a `KeyError`; and
the generated key's dict covers exactly the 52 ASCII letters. -/
theorem claim_C10_substitution_domain (shuffled text : List Char)
    (hperm : shuffled.Perm alphabetU)
    (hbad : ∃ c ∈ text, pyIsAlpha c = true ∧ isAsciiLetter c = false) :
    substitution_encrypt text (generate_substitution_key shuffled) = none ∧
    substitution_decrypt text (generate_substitution_key shuffled) = none ∧
    (generate_substitution_key shuffled).map Prod.fst =
      "AaBbCcDdEeFfGgHhIiJjKkLlMmNnOoPpQqRrSsTtUuVvWwXxYyZz".toList := by
  obtain ⟨c, hc, ha, hnl⟩ := hbad
  have hlen : shuffled.length = 26 := by
    have := hperm.length_eq
    simpa [alphabetU] using this
  have hmemkey : ∀ p ∈ generate_substitution_key shuffled,
      (pyIsUpper p.1 = true ∨ pyIsLower p.1 = true) ∧
      (pyIsUpper p.2 = true ∨ pyIsLower p.2 = true) := by
    intro p hp
    unfold generate_substitution_key at hp
    rw [List.mem_flatMap] at hp
    obtain ⟨i, hi, hpi⟩ := hp
    rw [List.mem_range] at hi
    have hup : pyIsUpper (Char.ofNat (65 + i)) = true := by
      simp only [pyIsUpper, char_toNat_ofNat_lt (65 + i) (by omega),
        Bool.and_eq_true, decide_eq_true_eq]
      omega
    have hshup : pyIsUpper (shuffled.getD i ' ') = true := by
      apply alphabetU_upper
      have hmem : shuffled.getD i ' ' ∈ shuffled := by
        rw [List.getD_eq_getElem shuffled ' ' (by omega)]
        exact List.getElem_mem (by omega)
      exact hperm.mem_iff.mp hmem
    rw [List.mem_cons, List.mem_singleton] at hpi
    rcases hpi with rfl | rfl
    · exact ⟨Or.inl hup, Or.inl hshup⟩
    · exact ⟨Or.inr (pyToLower_lower _ hup), Or.inr (pyToLower_lower _ hshup)⟩
  have hcletter : ∀ d : Char, pyIsUpper d = true ∨ pyIsLower d = true → d ≠ c := by
    intro d hd he
    subst he
    simp only [isAsciiLetter, Bool.or_eq_false_iff] at hnl
    rcases hd with h | h
    · rw [hnl.1] at h; exact absurd h (by simp)
    · rw [hnl.2] at h; exact absurd h (by simp)
  refine ⟨?_, ?_, generate_key_fst shuffled⟩
  · unfold substitution_encrypt
    rw [optionMapAll_eq_none_iff]
    refine ⟨c, hc, ?_⟩
    rw [if_pos ha, pyDictGet_eq_none_iff]
    intro p hp
    exact hcletter p.1 (hmemkey p hp).1
  · unfold substitution_decrypt
    rw [optionMapAll_eq_none_iff]
    refine ⟨c, hc, ?_⟩
    rw [if_pos ha, pyDictGet_eq_none_iff]
    intro p hp
    obtain ⟨q, hq, rfl⟩ := List.mem_map.mp hp
    exact hcletter q.2 (hmemkey q hq).2

/-- Witness for C10: the identity shuffle and the text "é". -/
theorem claim_C10_witness :
    (alphabetU.Perm alphabetU ∧ pyIsAlpha 'é' = true ∧ isAsciiLetter 'é' = false) ∧
      substitution_encrypt "é".toList (generate_substitution_key alphabetU) = none :=
  ⟨⟨List.Perm.refl alphabetU, by decide, by decide⟩,
    (claim_C10_substitution_domain alphabetU "é".toList (List.Perm.refl alphabetU)
      ⟨'é', by decide, by decide, by decide⟩).1⟩

/-! ### C2: RSA round trip -/

/-- Fermat-based lifting: if `k ≡ 1 (mod p-1)` and `k ≥ 1` then
`b^k ≡ b (mod p)` for a prime `p` and every natural `b`. -/
theorem pow_cong_self_of_modEq_one (p : Nat) (hp : p.Prime) (k : Nat)
    (hk1 : 1 ≤ k) (hk : k ≡ 1 [MOD p - 1]) (b : Nat) :
    b ^ k ≡ b [MOD p] := by
  by_cases hdvd : p ∣ b
  · have hb0 : b ≡ 0 [MOD p] := Nat.modEq_zero_iff_dvd.mpr hdvd
    calc b ^ k ≡ 0 ^ k [MOD p] := hb0.pow k
      _ = 0 := by rw [zero_pow (by omega)]
      _ ≡ b [MOD p] := hb0.symm
  · have hcop : Nat.Coprime b p :=
      ((Nat.Prime.coprime_iff_not_dvd hp).mpr hdvd).symm
    have hfermat : b ^ (p - 1) ≡ 1 [MOD p] := by
      have := Nat.ModEq.pow_totient hcop
      rwa [Nat.totient_prime hp] at this
    obtain ⟨t, ht⟩ := (Nat.modEq_iff_dvd' hk1).mp hk.symm
    have hkt : k = 1 + (p - 1) * t := by omega
    calc b ^ k = b * (b ^ (p - 1)) ^ t := by
          rw [hkt, pow_add, pow_one, pow_mul]
      _ ≡ b * 1 ^ t [MOD p] := Nat.ModEq.mul_left b (hfermat.pow t)
      _ = b := by rw [one_pow, mul_one]

/-- RSA core: with `n = p·q` a product of two distinct primes and
`e·d ≡ 1 (mod (p-1)(q-1))`, every byte value satisfies
`b^(e·d) ≡ b (mod n)`. -/
theorem rsa_byte_roundtrip (p q e d : Nat) (hp : p.Prime) (hq : q.Prime)
    (hne : p ≠ q) (hed : e * d ≡ 1 [MOD (p - 1) * (q - 1)]) (b : Nat) :
    b ^ (e * d) ≡ b [MOD p * q] := by
  have hp2 := hp.two_le
  have hq2 := hq.two_le
  have h3 : 3 ≤ p ∨ 3 ≤ q := by
    by_cases hple : 3 ≤ p
    · exact Or.inl hple
    · right
      have hp2' : p = 2 := by omega
      omega
  have hm2 : 2 ≤ (p - 1) * (q - 1) := by
    rcases h3 with h | h
    · calc 2 = 2 * 1 := by norm_num
        _ ≤ (p - 1) * (q - 1) := Nat.mul_le_mul (by omega) (by omega)
    · calc 2 = 1 * 2 := by norm_num
        _ ≤ (p - 1) * (q - 1) := Nat.mul_le_mul (by omega) (by omega)
  have hed1 : 1 ≤ e * d := by
    by_contra hcon
    have h0 : e * d = 0 := by omega
    rw [h0] at hed
    have heq : 0 % ((p - 1) * (q - 1)) = 1 % ((p - 1) * (q - 1)) := hed
    rw [Nat.zero_mod, Nat.mod_eq_of_lt (by omega)] at heq
    exact absurd heq (by omega)
  have hedp : e * d ≡ 1 [MOD p - 1] := hed.of_dvd (dvd_mul_right _ _)
  have hedq : e * d ≡ 1 [MOD q - 1] := hed.of_dvd (dvd_mul_left _ _)
  have hmp := pow_cong_self_of_modEq_one p hp (e * d) hed1 hedp b
  have hmq := pow_cong_self_of_modEq_one q hq (e * d) hed1 hedq b
  have hcop : Nat.Coprime p q := (Nat.coprime_primes hp hq).mpr hne
  exact (Nat.modEq_and_modEq_iff_modEq_mul hcop).mp ⟨hmp, hmq⟩

/-- C2: for a keypair with `n = p·q` a product of two distinct primes,
`e·d ≡ 1 (mod φ(n))` (the characterisation the claim gives of the output
of `rsa_generate_keypair`) and `n > 255`, RSA encryption followed by
decryption restores every ASCII text. -/
theorem claim_C2_rsa_roundtrip (p q e d : Nat) (msg : List Char)
    (hp : p.Prime) (hq : q.Prime) (hne : p ≠ q)
    (hn : 255 < p * q)
    (hed : e * d ≡ 1 [MOD (p - 1) * (q - 1)])
    (hmsg : ∀ c ∈ msg, c.toNat < 128) :
    rsa_decrypt (rsa_encrypt msg (e, p * q)) (d, p * q) = msg := by
  unfold rsa_decrypt rsa_encrypt
  rw [List.map_map]
  have hbyte : ∀ c ∈ msg,
      ((fun b => Char.ofNat (b ^ d % (p * q))) ∘
        (fun c : Char => c.toNat ^ e % (p * q))) c = c := by
    intro c hc
    have h1 : (c.toNat ^ e % (p * q)) ^ d % (p * q) = c.toNat ^ (e * d) % (p * q) := by
      rw [← Nat.pow_mod, ← pow_mul]
    have h2 : c.toNat ^ (e * d) % (p * q) = c.toNat % (p * q) :=
      rsa_byte_roundtrip p q e d hp hq hne hed c.toNat
    have h3 : c.toNat % (p * q) = c.toNat :=
      Nat.mod_eq_of_lt (by have := hmsg c hc; omega)
    simp only [Function.comp_apply, h1, h2, h3, Char.ofNat_toNat]
  calc msg.map ((fun b => Char.ofNat (b ^ d % (p * q))) ∘
        (fun c : Char => c.toNat ^ e % (p * q)))
      = msg.map id := List.map_congr_left hbyte
    _ = msg := List.map_id msg

/-- Witness for C2 at `p = 17`, `q = 19`, `e = 5`, `d = 173`, message "A". -/
theorem claim_C2_witness :
    (Nat.Prime 17 ∧ Nat.Prime 19 ∧ (17 : Nat) ≠ 19 ∧ (255 : Nat) < 17 * 19 ∧
      5 * 173 ≡ 1 [MOD (17 - 1) * (19 - 1)]) ∧
    rsa_decrypt (rsa_encrypt "A".toList (5, 17 * 19)) (173, 17 * 19) = "A".toList :=
  ⟨⟨by norm_num, by norm_num, by decide, by decide, by decide⟩,
    claim_C2_rsa_roundtrip 17 19 5 173 "A".toList (by norm_num) (by norm_num)
      (by decide) (by decide) (by decide) (by decide)⟩

/-! ### C8: Miller-Rabin -/

/-- Two naturals below the modulus that agree in `ZMod n` are equal. -/
theorem natcast_inj_of_lt {n a b : Nat} (ha : a < n) (hb : b < n)
    (h : (a : ZMod n) = (b : ZMod n)) : a = b := by
  have hv := congrArg ZMod.val h
  rwa [ZMod.val_cast_of_lt ha, ZMod.val_cast_of_lt hb] at hv

/-- On sufficient fuel the halving loop writes its argument as
`2^r * d` with `d` odd. -/
theorem factorTwosAux_spec : ∀ (fuel d : Nat), 0 < d → d ≤ fuel →
    (factorTwosAux fuel d).2 % 2 = 1 ∧
      d = 2 ^ (factorTwosAux fuel d).1 * (factorTwosAux fuel d).2 := by
  intro fuel
  induction fuel with
  | zero => intro d h1 h2; omega
  | succ fuel ih =>
    intro d h1 h2
    by_cases he : d % 2 = 0 ∧ d ≠ 0
    · have hd2 : 0 < d / 2 := by omega
      have hdf : d / 2 ≤ fuel := by omega
      obtain ⟨iho, ihe⟩ := ih (d / 2) hd2 hdf
      have hred : factorTwosAux (fuel + 1) d =
          ((factorTwosAux fuel (d / 2)).1 + 1, (factorTwosAux fuel (d / 2)).2) := by
        simp only [factorTwosAux]
        rw [if_pos he]
      rw [hred]
      refine ⟨iho, ?_⟩
      have hsplit : d = 2 * (d / 2) := by omega
      calc d = 2 * (d / 2) := hsplit
        _ = 2 * (2 ^ (factorTwosAux fuel (d / 2)).1 * (factorTwosAux fuel (d / 2)).2) := by
            rw [← ihe]
        _ = 2 ^ ((factorTwosAux fuel (d / 2)).1 + 1) * (factorTwosAux fuel (d / 2)).2 := by
            rw [pow_succ]; ring
    · have hred : factorTwosAux (fuel + 1) d = (0, d) := by
        simp only [factorTwosAux]
        rw [if_neg he]
      rw [hred]
      exact ⟨by omega, by simp⟩

/-- The squaring loop accepts exactly when one of the `t` squarings of `x`
hits `n - 1`, i.e. `x^(2^i) ≡ n-1` for some `1 ≤ i ≤ t`. -/
theorem mrSquareLoop_eq_true_iff (n : Nat) : ∀ (t x : Nat),
    mrSquareLoop n t x = true ↔ ∃ i, 1 ≤ i ∧ i ≤ t ∧ x ^ 2 ^ i % n = n - 1 := by
  intro t
  induction t with
  | zero =>
    intro x
    simp only [mrSquareLoop]
    constructor
    · intro h; exact absurd h (by simp)
    · intro h; obtain ⟨i, h1, h2, _⟩ := h; omega
  | succ t ih =>
    intro x
    have hsq : ∀ i : Nat, (x ^ 2 % n) ^ 2 ^ i % n = x ^ 2 ^ (i + 1) % n := by
      intro i
      rw [← Nat.pow_mod, ← pow_mul]
      congr 2
      rw [pow_succ]
      ring
    by_cases hx2 : x ^ 2 % n = n - 1
    · have hred : mrSquareLoop n (t + 1) x = true := by
        simp only [mrSquareLoop]
        rw [if_pos hx2]
      rw [hred]
      simp only [true_iff]
      exact ⟨1, le_refl 1, by omega, by rw [pow_one]; exact hx2⟩
    · have hred : mrSquareLoop n (t + 1) x = mrSquareLoop n t (x ^ 2 % n) := by
        simp only [mrSquareLoop]
        rw [if_neg hx2]
      rw [hred, ih (x ^ 2 % n)]
      constructor
      · intro h
        obtain ⟨i, h1, h2, h3⟩ := h
        rw [hsq i] at h3
        exact ⟨i + 1, by omega, by omega, h3⟩
      · intro h
        obtain ⟨i, h1, h2, h3⟩ := h
        match i, h1 with
        | 1, _ =>
          rw [pow_one] at h3
          exact absurd h3 hx2
        | (j + 2), _ =>
          refine ⟨j + 1, by omega, by omega, ?_⟩
          rw [hsq (j + 1)]
          exact h3

/-- Soundness of one Miller-Rabin round on primes: for an odd prime
`n ≥ 5`, a decomposition `n-1 = 2^r·d` with `d` odd and any base
`a ∈ [2, n-2]`, the round accepts. -/
theorem mrRound_true_of_prime (n : Nat) (hn : n.Prime) (h5 : 5 ≤ n)
    (hodd : n % 2 = 1) (r d : Nat) (hrd : n - 1 = 2 ^ r * d)
    (hdodd : d % 2 = 1) (a : Nat) (ha2 : 2 ≤ a) (han : a ≤ n - 2) :
    mrRound n d r a = true := by
  haveI : Fact n.Prime := ⟨hn⟩
  haveI : NeZero n := ⟨by omega⟩
  have hnpos : 0 < n := by omega
  have hr1 : 1 ≤ r := by
    by_contra hr
    have hr0 : r = 0 := by omega
    rw [hr0, pow_zero, one_mul] at hrd
    omega
  set α : ZMod n := (a : ZMod n) with hα
  have ha0 : α ≠ 0 := by
    intro h0
    have hv := congrArg ZMod.val h0
    rw [hα, ZMod.val_cast_of_lt (by omega : a < n), ZMod.val_zero] at hv
    omega
  have hfer : α ^ (n - 1) = 1 := ZMod.pow_card_sub_one_eq_one ha0
  have hchain : (α ^ d) ^ 2 ^ r = 1 := by
    rw [← pow_mul, mul_comm d (2 ^ r), ← hrd]
    exact hfer
  have hex : ∃ j, (α ^ d) ^ 2 ^ j = 1 := ⟨r, hchain⟩
  have hjspec : (α ^ d) ^ 2 ^ Nat.find hex = 1 := Nat.find_spec hex
  have hjr : Nat.find hex ≤ r := Nat.find_min' hex hchain
  have hX : ((a ^ d % n : Nat) : ZMod n) = α ^ d := by
    have h1 : ((a ^ d % n : Nat) : ZMod n) = ((a ^ d : Nat) : ZMod n) := by
      exact_mod_cast ZMod.natCast_mod (a ^ d) n
    rw [h1, hα]
    push_cast
    ring
  have hcastpow : ∀ m : Nat,
      (((a ^ d % n) ^ 2 ^ m % n : Nat) : ZMod n) = (α ^ d) ^ 2 ^ m := by
    intro m
    have h1 : (((a ^ d % n) ^ 2 ^ m % n : Nat) : ZMod n) =
        (((a ^ d % n) ^ 2 ^ m : Nat) : ZMod n) := by
      exact_mod_cast ZMod.natCast_mod ((a ^ d % n) ^ 2 ^ m) n
    rw [h1]
    push_cast
    rw [hX]
  have hn1 : ((n - 1 : Nat) : ZMod n) = -1 := by
    have hsum : ((n - 1 : Nat) : ZMod n) + 1 = 0 := by
      have hn' : ((n - 1) + 1 : Nat) = n := by omega
      calc ((n - 1 : Nat) : ZMod n) + 1
          = (((n - 1) + 1 : Nat) : ZMod n) := by push_cast; ring
        _ = ((n : Nat) : ZMod n) := by rw [hn']
        _ = 0 := ZMod.natCast_self n
    exact eq_neg_of_add_eq_zero_left hsum
  simp only [mrRound]
  by_cases hif : a ^ d % n = 1 ∨ a ^ d % n = n - 1
  · rw [if_pos hif]
  · rw [if_neg hif]
    rw [mrSquareLoop_eq_true_iff]
    have hj0 : Nat.find hex ≠ 0 := by
      intro h0
      apply hif
      left
      rw [h0, pow_zero, pow_one] at hjspec
      apply natcast_inj_of_lt (Nat.mod_lt _ hnpos) (by omega : 1 < n)
      rw [hX, hjspec, Nat.cast_one]
    obtain ⟨j', hj'⟩ : ∃ j'', Nat.find hex = j'' + 1 :=
      ⟨Nat.find hex - 1, by omega⟩
    have hβsq : ((α ^ d) ^ 2 ^ j') * ((α ^ d) ^ 2 ^ j') = 1 := by
      calc ((α ^ d) ^ 2 ^ j') * ((α ^ d) ^ 2 ^ j')
          = (α ^ d) ^ (2 ^ j' + 2 ^ j') := by rw [← pow_add]
        _ = (α ^ d) ^ 2 ^ (j' + 1) := by
            congr 1
            rw [pow_succ]
            ring
        _ = 1 := by rw [← hj']; exact hjspec
    have hβne1 : (α ^ d) ^ 2 ^ j' ≠ 1 := Nat.find_min hex (by omega)
    have hβneg : (α ^ d) ^ 2 ^ j' = -1 := by
      rcases mul_self_eq_one_iff.mp hβsq with h | h
      · exact absurd h hβne1
      · exact h
    have hval : (a ^ d % n) ^ 2 ^ j' % n = n - 1 := by
      apply natcast_inj_of_lt (Nat.mod_lt _ hnpos) (by omega : n - 1 < n)
      rw [hcastpow j', hβneg, hn1]
    rcases Nat.eq_zero_or_pos j' with hj'0 | hj'pos
    · exfalso
      apply hif
      right
      rw [hj'0, pow_zero, pow_one, Nat.mod_eq_of_lt (Nat.mod_lt _ hnpos)] at hval
      exact hval
    · exact ⟨j', hj'pos, by omega, hval⟩

/-- The base 2 is a strong liar for 2047: since `2047 = 2^11 - 1`,
`2^1023 = (2^11)^93 ≡ 1 (mod 2047)`. -/
theorem two_pow_1023_mod_2047 : 2 ^ 1023 % 2047 = 1 := by
  have h : (2 : Nat) ^ 1023 = (2 ^ 11) ^ 93 := by
    rw [← pow_mul]
  rw [h, Nat.pow_mod]
  norm_num

/-- Counterexample to C8 as stated: `n = 2047 = 23 · 89` is composite but
`2` is a strong liar for it, so the draw sequence `[2, 2, 2, 2, 2]` makes
`is_prime(2047)` return true — the result is not independent of the random
draws for composites below 10,000. -/
theorem claim_C8_counterexample :
    is_prime 2047 (List.replicate 5 2) = true ∧ ¬ Nat.Prime 2047 := by
  constructor
  · have hft : factorTwos 2046 = (1, 1023) := by decide
    have hround : mrRound 2047 1023 1 2 = true := by
      simp only [mrRound]
      rw [if_pos (Or.inl two_pow_1023_mod_2047)]
    simp only [is_prime]
    rw [if_neg (by norm_num), if_neg (by norm_num), if_neg (by norm_num),
      hft, List.all_eq_true]
    intro a ha
    rw [List.eq_of_mem_replicate ha]
    exact hround
  · norm_num

/-- C8 (amended: the composite half holds only for the deterministic
branches — for odd composites the outcome depends on the drawn bases, as
the 2047 counterexample shows): `is_prime` accepts every prime for every
valid base sequence, rejects every `n < 2` and every even `n > 2`
deterministically, and accepts 2 and 3. -/
theorem claim_C8_is_prime (n : Nat) (bases : List Nat) :
    (n.Prime → (∀ a ∈ bases, 2 ≤ a ∧ a ≤ n - 2) → is_prime n bases = true) ∧
    (n < 2 → is_prime n bases = false) ∧
    (2 < n → n % 2 = 0 → is_prime n bases = false) ∧
    (is_prime 2 bases = true ∧ is_prime 3 bases = true) := by
  refine ⟨?_, ?_, ?_, by constructor <;> rfl⟩
  · intro hn hbases
    have h2 := hn.two_le
    by_cases hn23 : n = 2 ∨ n = 3
    · rcases hn23 with rfl | rfl <;> rfl
    · have h4 : n ≠ 4 := by
        intro h
        rw [h] at hn
        norm_num at hn
      have h5 : 5 ≤ n := by omega
      have hodd : n % 2 = 1 := by
        rcases Nat.Prime.eq_two_or_odd hn with h | h
        · omega
        · exact h
      simp only [is_prime]
      rw [if_neg (by omega), if_neg hn23, if_neg (by omega), List.all_eq_true]
      intro a ha
      obtain ⟨ha2, han⟩ := hbases a ha
      obtain ⟨hdodd, hfact⟩ :=
        factorTwosAux_spec (n - 1) (n - 1) (by omega) (le_refl (n - 1))
      exact mrRound_true_of_prime n hn h5 hodd (factorTwos (n - 1)).1
        (factorTwos (n - 1)).2 hfact hdodd a ha2 han
  · intro h
    simp [is_prime, h]
  · intro h2 heven
    simp only [is_prime]
    rw [if_neg (by omega), if_neg (by omega), if_pos heven]

/-- Witness for C8 at the prime 7 with bases drawn from `[2, 5]`. -/
theorem claim_C8_witness :
    (Nat.Prime 7 ∧ ∀ a ∈ [2, 3, 4, 5], 2 ≤ a ∧ a ≤ 7 - 2) ∧
      is_prime 7 [2, 3, 4, 5] = true :=
  ⟨⟨by norm_num, by decide⟩,
    (claim_C8_is_prime 7 [2, 3, 4, 5]).1 (by norm_num) (by decide)⟩

/-! ### C3: columnar transposition -/

theorem pyIndex_lt_length {α : Type} [DecidableEq α] (l : List α) (x : α)
    (h : x ∈ l) : pyIndex l x < l.length := by
  induction l with
  | nil => simp at h
  | cons a l ih =>
    simp only [pyIndex]
    by_cases hax : a = x
    · rw [if_pos hax]
      simp
    · rw [if_neg hax]
      have hm : x ∈ l := by
        rcases List.mem_cons.mp h with h' | h'
        · exact absurd h'.symm hax
        · exact h'
      simpa using ih hm

theorem getD_pyIndex {α : Type} [DecidableEq α] (l : List α) (x : α) (d : α)
    (h : x ∈ l) : l.getD (pyIndex l x) d = x := by
  induction l with
  | nil => simp at h
  | cons a l ih =>
    simp only [pyIndex]
    by_cases hax : a = x
    · rw [if_pos hax]
      simpa using hax
    · rw [if_neg hax]
      have hm : x ∈ l := by
        rcases List.mem_cons.mp h with h' | h'
        · exact absurd h'.symm hax
        · exact h'
      simpa using ih hm

theorem insChar_perm (x : Char) (l : List Char) : (insChar x l).Perm (x :: l) := by
  induction l with
  | nil => exact List.Perm.refl _
  | cons y l ih =>
    simp only [insChar]
    by_cases h : x ≤ y
    · rw [if_pos h]
    · rw [if_neg h]
      exact (List.Perm.cons y ih).trans (List.Perm.swap x y l)

theorem sortChars_perm (l : List Char) : (sortChars l).Perm l := by
  induction l with
  | nil => exact List.Perm.refl _
  | cons x l ih =>
    exact (insChar_perm x (sortChars l)).trans (List.Perm.cons x ih)

theorem insPair_perm (x : Nat × Char) (l : List (Nat × Char)) :
    (insPair x l).Perm (x :: l) := by
  induction l with
  | nil => exact List.Perm.refl _
  | cons y l ih =>
    simp only [insPair]
    by_cases h : x.2 ≤ y.2
    · rw [if_pos h]
    · rw [if_neg h]
      exact (List.Perm.cons y ih).trans (List.Perm.swap x y l)

theorem stableSortPairs_perm (l : List (Nat × Char)) :
    (stableSortPairs l).Perm l := by
  induction l with
  | nil => exact List.Perm.refl _
  | cons x l ih =>
    exact (insPair_perm x (stableSortPairs l)).trans (List.Perm.cons x ih)

/-- The sorted key order's column indices are a permutation of
`0, …, numCols - 1`. -/
theorem cols_perm_range (nk : List Char) :
    ((stableSortPairs nk.enum).map Prod.fst).Perm (List.range nk.length) := by
  have h1 := (stableSortPairs_perm nk.enum).map Prod.fst
  rwa [List.enum_map_fst] at h1

/-- Length of a flat map whose pieces all have length `m`. -/
theorem flatMap_const_length {α β : Type} (f : α → List β) (m : Nat) :
    ∀ l : List α, (∀ a ∈ l, (f a).length = m) →
      (l.flatMap f).length = l.length * m := by
  intro l
  induction l with
  | nil => intro h; simp
  | cons a l ih =>
    intro h
    rw [List.flatMap_cons, List.length_append, h a (List.mem_cons_self a l),
      ih (fun b hb => h b (List.mem_cons_of_mem a hb)), List.length_cons]
    ring

/-- Element lookup inside a flat map whose pieces all have length `m`. -/
theorem getD_flatMap_const {α β : Type} (f : α → List β) (m : Nat) (d : β) (a₀ : α) :
    ∀ (l : List α) (k i : Nat), (∀ a ∈ l, (f a).length = m) →
      k < l.length → i < m →
      (l.flatMap f).getD (k * m + i) d = (f (l.getD k a₀)).getD i d := by
  intro l
  induction l with
  | nil => intro k i h hk hi; simp at hk
  | cons a l ih =>
    intro k i h hk hi
    have hlen : (f a).length = m := h a (List.mem_cons_self a l)
    match k with
    | 0 =>
      rw [List.flatMap_cons, Nat.zero_mul, Nat.zero_add,
        List.getD_append _ _ _ _ (by omega), List.getD_cons_zero]
    | k + 1 =>
      have hsplit : (k + 1) * m + i = m + (k * m + i) := by ring
      rw [List.flatMap_cons,
        List.getD_append_right _ _ _ _ (by rw [hlen, hsplit]; exact Nat.le_add_right m _),
        hlen, hsplit, Nat.add_sub_cancel_left, List.getD_cons_succ]
      exact ih k i (fun b hb => h b (List.mem_cons_of_mem a hb)) (by simpa using hk) hi

/-- `rstrip('X')` ignores appended filler. -/
theorem rstripX_append_replicate (l : List Char) (m : Nat) :
    rstripX (l ++ List.replicate m 'X') = rstripX l := by
  unfold rstripX
  rw [List.reverse_append, List.reverse_replicate]
  congr 1
  induction m with
  | zero => simp
  | succ m ih =>
    rw [List.replicate_succ, List.cons_append, List.dropWhile_cons,
      if_pos (by simp)]
    exact ih

/-- `rstrip('X')` is the identity on texts not ending in the filler. -/
theorem rstripX_eq_self (l : List Char) (h : endsWithX l = false) :
    rstripX l = l := by
  unfold rstripX
  cases hrev : l.reverse with
  | nil =>
    have : l = [] := by simpa using congrArg List.reverse hrev
    simp [this]
  | cons a t =>
    have hlast : l.getLast? = some a := by
      rw [← List.head?_reverse, hrev]
      rfl
    have hax : a ≠ 'X' := by
      intro hax
      rw [hax] at hlast
      simp [endsWithX, hlast] at h
    rw [List.dropWhile_cons, if_neg (by simpa using hax), ← hrev,
      List.reverse_reverse]

/-- `rstrip('X')` strictly truncates a text that ends in the filler. -/
theorem rstripX_ne_self (l : List Char) (h : endsWithX l = true) :
    rstripX l ≠ l := by
  have hne : l.reverse ≠ [] := by
    intro hnil
    have : l = [] := by simpa using congrArg List.reverse hnil
    rw [this] at h
    simp [endsWithX] at h
  obtain ⟨a, t, hrev⟩ := List.exists_cons_of_ne_nil hne
  have hlast : l.getLast? = some a := by
    rw [← List.head?_reverse, hrev]
    rfl
  have hax : a = 'X' := by
    simp only [endsWithX, hlast, decide_eq_true_eq, Option.some.injEq] at h
    exact h
  intro heq
  have hlen : (rstripX l).length < l.length := by
    unfold rstripX
    rw [hrev, List.dropWhile_cons, if_pos (by simp [hax])]
    have : (t.dropWhile (fun c => decide (c = 'X'))).length ≤ t.length :=
      (List.dropWhile_suffix _).length_le
    have hlt : l.length = t.length + 1 := by
      have := congrArg List.length hrev
      simpa using this
    simp only [List.length_reverse]
    omega
  rw [heq] at hlen
  omega

/-- The text fits in the `ceil(len/numCols)`-row grid. -/
theorem le_mul_ceil (len C : Nat) (hC : 0 < C) :
    len ≤ C * ((len + C - 1) / C) := by
  have hdm := Nat.div_add_mod (len + C - 1) C
  have hmod : (len + C - 1) % C < C := Nat.mod_lt _ hC
  generalize hq : C * ((len + C - 1) / C) = K at hdm ⊢
  omega

/-- The ceiling division recovers the exact row count on a full grid. -/
theorem ceil_exact (C R : Nat) (hC : 0 < C) : (C * R + C - 1) / C = R := by
  have h1 : C * R + C - 1 = C * R + (C - 1) := by omega
  rw [h1, Nat.mul_add_div hC, Nat.div_eq_of_lt (by omega), Nat.add_zero]

/-- A digit-string key is used as is. -/
theorem convertKey_digit (key : List Char) (h : pyIsDigitStr key = true) :
    convertKey key = key := by
  unfold convertKey
  rw [if_pos h]

set_option maxRecDepth 1000 in
theorem toDigits10_len_one : ∀ n : Nat, n < 10 → (Nat.toDigits 10 n).length = 1 := by
  decide

theorem flatten_map_len_one {α : Type} (f : α → List Char) :
    ∀ l : List α, (∀ a ∈ l, (f a).length = 1) →
      ((l.map f).flatten).length = l.length := by
  intro l
  induction l with
  | nil => intro h; simp
  | cons a l ih =>
    intro h
    rw [List.map_cons, List.flatten_cons, List.length_append,
      h a (List.mem_cons_self a l), ih (fun b hb => h b (List.mem_cons_of_mem a hb)),
      List.length_cons]
    omega

/-- A word key of at most 9 characters converts to a digit string of the
same length (every rank is a single digit). -/
theorem convertKey_short_length (key : List Char) (hlen : key.length ≤ 9)
    (hword : pyIsDigitStr key = false) :
    (convertKey key).length = key.length := by
  unfold convertKey
  rw [if_neg (by simp [hword])]
  apply flatten_map_len_one
  intro c hc
  have hmem : c ∈ sortChars key := (sortChars_perm key).mem_iff.mpr hc
  have hidx : pyIndex (sortChars key) c < (sortChars key).length :=
    pyIndex_lt_length _ _ hmem
  have hslen : (sortChars key).length = key.length := (sortChars_perm key).length_eq
  exact toDigits10_len_one _ (by omega)

/-- Under the amended key hypothesis the converted key keeps the original
key's length (and in particular is nonempty for a nonempty key). -/
theorem convertKey_length_eq (key : List Char)
    (hk : pyIsDigitStr key = true ∨ key.length ≤ 9) :
    (convertKey key).length = key.length := by
  by_cases hd : pyIsDigitStr key = true
  · rw [convertKey_digit key hd]
  · rcases hk with hk | hk
    · exact absurd hk hd
    · exact convertKey_short_length key hk (by simpa using hd)

/-- Zeta-expanded form of `transposition_encrypt`. -/
theorem transposition_encrypt_def (text key : List Char) :
    transposition_encrypt text key =
      (stableSortPairs (convertKey key).enum).flatMap (fun p =>
        (List.range ((text.length + (convertKey key).length - 1) / (convertKey key).length)).map
          (fun r => (text ++ List.replicate ((convertKey key).length *
              ((text.length + (convertKey key).length - 1) / (convertKey key).length)
               - text.length) 'X').getD (r * (convertKey key).length + p.1) 'X')) := rfl

/-- Zeta-expanded form of `transposition_decrypt`. -/
theorem transposition_decrypt_def (ct key : List Char) :
    transposition_decrypt ct key =
      rstripX ((List.range ((ct.length + (convertKey key).length - 1) / (convertKey key).length)).flatMap
        (fun i => (List.range (convertKey key).length).map (fun j =>
          ct.getD (pyIndex ((stableSortPairs (convertKey key).enum).map Prod.fst) j *
            ((ct.length + (convertKey key).length - 1) / (convertKey key).length) + i) 'X'))) := rfl

/-- Reading the grid columns in any enumeration of the column indices and
then refilling them in the same enumeration and reading row-major restores
the padded text. -/
theorem grid_roundtrip (padded : List Char) (cols : List Nat) (C R : Nat)
    (hC : 0 < C) (hcols : cols.Perm (List.range C))
    (hpadlen : padded.length = C * R) :
    (List.range R).flatMap (fun i => (List.range C).map (fun j =>
      (cols.flatMap (fun c => (List.range R).map (fun r =>
        padded.getD (r * C + c) 'X'))).getD (pyIndex cols j * R + i) 'X')) = padded := by
  have hcols_len : cols.length = C := by
    rw [hcols.length_eq, List.length_range]
  have houtlen : ((List.range R).flatMap (fun i => (List.range C).map (fun j =>
      (cols.flatMap (fun c => (List.range R).map (fun r =>
        padded.getD (r * C + c) 'X'))).getD (pyIndex cols j * R + i) 'X'))).length = R * C := by
    rw [flatMap_const_length _ C _ (by intro a _; simp), List.length_range]
  apply List.ext_getElem (by rw [houtlen, hpadlen]; ring)
  intro t h1 h2
  have ht : t < R * C := by rwa [houtlen] at h1
  have hj : t % C < C := Nat.mod_lt _ hC
  have hi : t / C < R := (Nat.div_lt_iff_lt_mul hC).mpr ht
  have hmemj : t % C ∈ cols := hcols.mem_iff.mpr (List.mem_range.mpr hj)
  have hkidx : pyIndex cols (t % C) < cols.length := pyIndex_lt_length _ _ hmemj
  have ht_eq : t / C * C + t % C = t := by
    rw [mul_comm]
    exact Nat.div_add_mod t C
  rw [← List.getD_eq_getElem _ 'X' h1, ← List.getD_eq_getElem _ 'X' h2, ← ht_eq]
  rw [getD_flatMap_const _ C 'X' 0 (List.range R) (t / C) (t % C)
    (by intro a _; simp) (by simpa using hi) hj]
  rw [List.getD_eq_getElem _ 0 (by simpa using hi), List.getElem_range]
  rw [List.getD_eq_getElem _ 'X' (by simpa using hj), List.getElem_map, List.getElem_range]
  rw [getD_flatMap_const _ R 'X' 0 cols (pyIndex cols (t % C)) (t / C)
    (by intro a _; simp) hkidx hi]
  rw [getD_pyIndex cols (t % C) 0 hmemj]
  rw [List.getD_eq_getElem _ 'X' (by simpa using hi), List.getElem_map, List.getElem_range]

theorem flatMap_fst {β : Type} (l : List (Nat × Char)) (g : Nat → List β) :
    l.flatMap (fun p => g p.1) = (l.map Prod.fst).flatMap g := by
  induction l with
  | nil => rfl
  | cons a l ih => simp only [List.flatMap_cons, List.map_cons, ih]

/-- Decrypting an encryption restores the padded plaintext and then strips
trailing 'X', i.e. the round trip equals `rstrip('X')` of the plaintext. -/
theorem transposition_roundtrip (text key : List Char)
    (hnk : convertKey key ≠ []) :
    transposition_decrypt (transposition_encrypt text key) key = rstripX text := by
  have hC : 0 < (convertKey key).length := List.length_pos.mpr hnk
  have hperm := cols_perm_range (convertKey key)
  have hcolslen : ((stableSortPairs (convertKey key).enum).map Prod.fst).length =
      (convertKey key).length := by
    rw [hperm.length_eq, List.length_range]
  have hfit : text.length ≤ (convertKey key).length *
      ((text.length + (convertKey key).length - 1) / (convertKey key).length) :=
    le_mul_ceil _ _ hC
  have hpadlen : (text ++ List.replicate ((convertKey key).length *
      ((text.length + (convertKey key).length - 1) / (convertKey key).length)
        - text.length) 'X').length =
      (convertKey key).length *
        ((text.length + (convertKey key).length - 1) / (convertKey key).length) := by
    rw [List.length_append, List.length_replicate]
    omega
  have henc : transposition_encrypt text key =
      ((stableSortPairs (convertKey key).enum).map Prod.fst).flatMap
        (fun c => (List.range
            ((text.length + (convertKey key).length - 1) / (convertKey key).length)).map
          (fun r => (text ++ List.replicate ((convertKey key).length *
              ((text.length + (convertKey key).length - 1) / (convertKey key).length)
               - text.length) 'X').getD (r * (convertKey key).length + c) 'X')) := by
    rw [transposition_encrypt_def]
    exact flatMap_fst (stableSortPairs (convertKey key).enum) (fun c =>
      (List.range
          ((text.length + (convertKey key).length - 1) / (convertKey key).length)).map
        (fun r => (text ++ List.replicate ((convertKey key).length *
            ((text.length + (convertKey key).length - 1) / (convertKey key).length)
             - text.length) 'X').getD (r * (convertKey key).length + c) 'X'))
  have hctlen : (transposition_encrypt text key).length =
      (convertKey key).length *
        ((text.length + (convertKey key).length - 1) / (convertKey key).length) := by
    rw [henc, flatMap_const_length _
      ((text.length + (convertKey key).length - 1) / (convertKey key).length) _
      (by intro a _; simp), hcolslen]
  rw [transposition_decrypt_def, hctlen, ceil_exact _ _ hC, henc,
    grid_roundtrip _ _ _ _ hC hperm hpadlen, rstripX_append_replicate]

/-- The encrypted length is the full grid: columns times rows. -/
theorem transposition_encrypt_length (text key : List Char) :
    (transposition_encrypt text key).length =
      (convertKey key).length *
        ((text.length + (convertKey key).length - 1) / (convertKey key).length) := by
  rw [transposition_encrypt_def]
  rw [flatMap_const_length _
    ((text.length + (convertKey key).length - 1) / (convertKey key).length) _
    (by intro a _; simp)]
  rw [(stableSortPairs_perm (convertKey key).enum).length_eq, List.enum_length]

/-- Counterexample to C3 as stated: the ten-letter word key "ABCDEFGHIJ"
converts to the digit string "12345678910" (the rank of 'J' is the
two-character "10"), so the ciphertext of "A" has length 11, which is not a
multiple of the key length 10. -/
theorem claim_C3_counterexample :
    ¬ ((transposition_encrypt "A".toList "ABCDEFGHIJ".toList).length %
        ("ABCDEFGHIJ".toList).length = 0) := by
  decide

/-- C3 (amended: the length-divisibility clause holds for digit-string keys
and for word keys of at most 9 characters, whose single-digit ranks keep
the converted key the same length; a 10-or-more-letter word key falsifies
it): padding makes the ciphertext length a multiple of the key length, the
round trip restores any plaintext not ending in the filler 'X', and a
plaintext ending in 'X' is truncated by the trailing-filler strip. -/
theorem claim_C3_transposition (text key : List Char) (hne : key ≠ [])
    (hk : pyIsDigitStr key = true ∨ key.length ≤ 9) :
    (transposition_encrypt text key).length % key.length = 0 ∧
    (endsWithX text = false →
      transposition_decrypt (transposition_encrypt text key) key = text) ∧
    (endsWithX text = true →
      transposition_decrypt (transposition_encrypt text key) key ≠ text) := by
  have hlen := convertKey_length_eq key hk
  have hkeypos : 0 < key.length := List.length_pos.mpr hne
  have hnk : convertKey key ≠ [] := by
    intro h
    rw [h] at hlen
    simp only [List.length_nil] at hlen
    omega
  refine ⟨?_, ?_, ?_⟩
  · rw [transposition_encrypt_length, hlen]
    exact Nat.mul_mod_right _ _
  · intro hx
    rw [transposition_roundtrip text key hnk]
    exact rstripX_eq_self text hx
  · intro hx
    rw [transposition_roundtrip text key hnk]
    exact rstripX_ne_self text hx

/-- Witness for C3 at text "AB" and digit key "21". -/
theorem claim_C3_witness :
    ("21".toList ≠ [] ∧ endsWithX "AB".toList = false) ∧
      transposition_decrypt (transposition_encrypt "AB".toList "21".toList)
        "21".toList = "AB".toList :=
  ⟨⟨by decide, by decide⟩,
    (claim_C3_transposition "AB".toList "21".toList (by decide)
      (Or.inl (by decide))).2.1 (by decide)⟩

/-! ### C5 and C9: the frequency-analysis breaker -/

theorem scoreLtB_irrefl (x : Option ℚ) : scoreLtB x x = false := by
  cases x with
  | none => rfl
  | some a => simp [scoreLtB]

theorem scoreLtB_none_right (x : Option ℚ) :
    scoreLtB x none = false ↔ x = none := by
  cases x with
  | none => simp [scoreLtB]
  | some a => simp [scoreLtB]

theorem scoreLtB_trans {x y z : Option ℚ} (h1 : scoreLtB x y = true)
    (h2 : scoreLtB y z = true) : scoreLtB x z = true := by
  cases x with
  | none => simp [scoreLtB] at h1
  | some a =>
    cases z with
    | none => simp [scoreLtB]
    | some c =>
      cases y with
      | none => simp [scoreLtB] at h2
      | some b =>
        simp only [scoreLtB, decide_eq_true_eq] at h1 h2 ⊢
        linarith

/-- From `x < y` and `¬ z < y` conclude `x < z` (i.e. `x < y ≤ z`). -/
theorem scoreLtB_lt_of_lt_of_nlt {x y z : Option ℚ} (h1 : scoreLtB x y = true)
    (h2 : scoreLtB z y = false) : scoreLtB x z = true := by
  cases x with
  | none => simp [scoreLtB] at h1
  | some a =>
    cases z with
    | none => simp [scoreLtB]
    | some c =>
      cases y with
      | none =>
        simp [scoreLtB] at h2
      | some b =>
        simp only [scoreLtB, decide_eq_true_eq, decide_eq_false_iff_not, not_lt] at h1 h2 ⊢
        linarith

theorem scoreLtB_asymm {x y : Option ℚ} (h : scoreLtB x y = true) :
    scoreLtB y x = false := by
  by_contra hc
  have hc' : scoreLtB y x = true := by
    cases hyx : scoreLtB y x with
    | false => exact absurd hyx hc
    | true => rfl
  have := scoreLtB_trans h hc'
  rw [scoreLtB_irrefl] at this
  exact absurd this (by simp)

/-- Specification of the running-best scan of `break_caesar_frequency`:
the final state is never beaten by any candidate, never beats the initial
state's score falsely, and is either the untouched initial state or the
earliest candidate that strictly improves on everything before it. -/
theorem scan_spec : ∀ (l : List CandRec) (b : Nat × Option ℚ × List Char),
    (∀ r ∈ l, scoreLtB r.comb (l.foldl scanStep b).2.1 = false) ∧
    scoreLtB b.2.1 (l.foldl scanStep b).2.1 = false ∧
    (l.foldl scanStep b = b ∨
      ∃ k, k < l.length ∧
        l.foldl scanStep b =
          ((l.getD k defaultRec).shift, (l.getD k defaultRec).comb,
            (l.getD k defaultRec).text) ∧
        scoreLtB (l.foldl scanStep b).2.1 b.2.1 = true ∧
        ∀ m, m < k →
          scoreLtB (l.foldl scanStep b).2.1 (l.getD m defaultRec).comb = true) := by
  intro l
  induction l with
  | nil =>
    intro b
    exact ⟨by simp, by rw [List.foldl_nil, scoreLtB_irrefl], Or.inl rfl⟩
  | cons r l ih =>
    intro b
    rw [List.foldl_cons]
    by_cases hlt : scoreLtB r.comb b.2.1 = true
    · have hb' : scanStep b r = (r.shift, r.comb, r.text) := by
        unfold scanStep
        rw [if_pos hlt]
      rw [hb']
      obtain ⟨ihA, ihB, ihC⟩ := ih (r.shift, r.comb, r.text)
      refine ⟨?_, ?_, ?_⟩
      · intro r' hr'
        rcases List.mem_cons.mp hr' with rfl | hmem
        · exact ihB
        · exact ihA r' hmem
      · by_contra hcon
        have hcon' :
            scoreLtB b.2.1 (l.foldl scanStep (r.shift, r.comb, r.text)).2.1 = true := by
          cases hx : scoreLtB b.2.1 (l.foldl scanStep (r.shift, r.comb, r.text)).2.1 with
          | false => exact absurd hx hcon
          | true => rfl
        have hlt2 : scoreLtB b.2.1 r.comb = true :=
          scoreLtB_lt_of_lt_of_nlt hcon' ihB
        have hbad := scoreLtB_trans hlt hlt2
        rw [scoreLtB_irrefl] at hbad
        exact absurd hbad (by simp)
      · rcases ihC with heq | ⟨k, hk, heq, hsc, hprev⟩
        · refine Or.inr ⟨0, by simp, ?_, ?_, by omega⟩
          · rw [heq]
            simp
          · rw [heq]
            exact hlt
        · refine Or.inr ⟨k + 1, by simpa using hk, by simpa using heq, ?_, ?_⟩
          · exact scoreLtB_trans hsc hlt
          · intro m hm
            match m with
            | 0 =>
              simpa using hsc
            | m + 1 =>
              simpa using hprev m (by omega)
    · have hb' : scanStep b r = b := by
        unfold scanStep
        rw [if_neg (by simpa using hlt)]
      rw [hb']
      obtain ⟨ihA, ihB, ihC⟩ := ih b
      refine ⟨?_, ihB, ?_⟩
      · intro r' hr'
        rcases List.mem_cons.mp hr' with rfl | hmem
        · by_contra hcon
          have hcon' : scoreLtB r'.comb (l.foldl scanStep b).2.1 = true := by
            cases hx : scoreLtB r'.comb (l.foldl scanStep b).2.1 with
            | false => exact absurd hx hcon
            | true => rfl
          have hr'b : scoreLtB r'.comb b.2.1 = true :=
            scoreLtB_lt_of_lt_of_nlt hcon' ihB
          rw [hr'b] at hlt
          exact hlt rfl
        · exact ihA r' hmem
      · rcases ihC with heq | ⟨k, hk, heq, hsc, hprev⟩
        · exact Or.inl heq
        · refine Or.inr ⟨k + 1, by simpa using hk, by simpa using heq, hsc, ?_⟩
          intro m hm
          match m with
          | 0 =>
            have hr : scoreLtB r.comb b.2.1 = false := by
              cases hx : scoreLtB r.comb b.2.1 with
              | false => rfl
              | true => exact absurd hx hlt
            simpa using scoreLtB_lt_of_lt_of_nlt hsc hr
          | m + 1 =>
            simpa using hprev m (by omega)

theorem insRec_length (x : CandRec) (l : List CandRec) :
    (insRec x l).length = l.length + 1 := by
  induction l with
  | nil => rfl
  | cons y l ih =>
    simp only [insRec]
    by_cases h : scoreLeB x.comb y.comb = true
    · rw [if_pos h]
      simp
    · rw [if_neg h]
      simp [ih]

theorem isortRecs_length (l : List CandRec) :
    (isortRecs l).length = l.length := by
  induction l with
  | nil => rfl
  | cons x l ih =>
    simp only [isortRecs]
    rw [insRec_length, ih, List.length_cons]

/-- The head of the stable sort is the earliest record with minimal
combined score. -/
theorem isortRecs_head_spec : ∀ l : List CandRec, l ≠ [] →
    ∃ k, k < l.length ∧ (isortRecs l).headD defaultRec = l.getD k defaultRec ∧
      (∀ r ∈ l, scoreLtB r.comb ((isortRecs l).headD defaultRec).comb = false) ∧
      (∀ m, m < k →
        scoreLtB ((isortRecs l).headD defaultRec).comb (l.getD m defaultRec).comb = true) := by
  intro l
  induction l with
  | nil => intro h; exact absurd rfl h
  | cons x l ih =>
    intro _
    by_cases hl : l = []
    · subst hl
      refine ⟨0, by simp, by simp [isortRecs, insRec], ?_, by omega⟩
      intro r hr
      rcases List.mem_cons.mp hr with rfl | hmem
      · simp only [isortRecs, insRec, List.headD_cons]
        exact scoreLtB_irrefl r.comb
      · simp at hmem
    · obtain ⟨k, hk, hhead, hmin, hprev⟩ := ih hl
      obtain ⟨y, rest, hyrest⟩ : ∃ y rest, isortRecs l = y :: rest := by
        cases hsl : isortRecs l with
        | nil =>
          exfalso
          have := isortRecs_length l
          rw [hsl] at this
          exact hl (List.length_eq_zero.mp this.symm)
        | cons y rest => exact ⟨y, rest, rfl⟩
      have hy : y = (isortRecs l).headD defaultRec := by rw [hyrest]; rfl
      simp only [isortRecs, hyrest, insRec]
      by_cases hxy : scoreLeB x.comb y.comb = true
      · rw [if_pos hxy]
        have hnlt : scoreLtB y.comb x.comb = false := by
          simp only [scoreLeB, Bool.not_eq_true'] at hxy
          exact hxy
        refine ⟨0, by simp, by simp, ?_, by omega⟩
        intro r hr
        rcases List.mem_cons.mp hr with rfl | hmem
        · simp only [List.headD_cons]
          exact scoreLtB_irrefl r.comb
        · simp only [List.headD_cons]
          by_contra hcon
          have hcon' : scoreLtB r.comb x.comb = true := by
            cases hx : scoreLtB r.comb x.comb with
            | false => exact absurd hx hcon
            | true => rfl
          have hry : scoreLtB r.comb y.comb = true :=
            scoreLtB_lt_of_lt_of_nlt hcon' hnlt
          have := hmin r hmem
          rw [hy] at hry
          rw [hry] at this
          exact absurd this (by simp)
      · rw [if_neg hxy]
        have hyx : scoreLtB y.comb x.comb = true := by
          simp only [scoreLeB, Bool.not_eq_true'] at hxy
          cases hx : scoreLtB y.comb x.comb with
          | false => exact absurd hx (by simp [hxy])
          | true => rfl
        refine ⟨k + 1, by simpa using hk, ?_, ?_, ?_⟩
        · simp only [List.headD_cons, List.getD_cons_succ]
          rw [hy, hhead]
        · intro r hr
          rcases List.mem_cons.mp hr with rfl | hmem
          · simp only [List.headD_cons]
            exact scoreLtB_asymm hyx
          · simp only [List.headD_cons]
            rw [hy]
            exact hmin r hmem
        · intro m hm
          match m with
          | 0 =>
            simp only [List.headD_cons, List.getD_cons_zero]
            exact hyx
          | m + 1 =>
            simp only [List.headD_cons, List.getD_cons_succ]
            rw [hy]
            exact hprev m (by omega)

theorem candidates_length (ct : List Char) (lang : Lang) :
    (candidates ct lang).length = 26 := by
  simp [candidates]

theorem candidates_getD (ct : List Char) (lang : Lang) (s : Nat) (hs : s < 26) :
    (candidates ct lang).getD s defaultRec = candAt ct lang s := by
  unfold candidates
  rw [List.getD_eq_getElem _ _ (by simpa using hs), List.getElem_map,
    List.getElem_range]

theorem candAt_mem (ct : List Char) (lang : Lang) (s : Nat) (hs : s < 26) :
    candAt ct lang s ∈ candidates ct lang := by
  unfold candidates
  exact List.mem_map.mpr ⟨s, List.mem_range.mpr hs, rfl⟩

theorem candidates_mem_iff (ct : List Char) (lang : Lang) (r : CandRec) :
    r ∈ candidates ct lang ↔ ∃ s, s < 26 ∧ r = candAt ct lang s := by
  unfold candidates
  rw [List.mem_map]
  constructor
  · intro h
    obtain ⟨s, hs, hr⟩ := h
    exact ⟨s, List.mem_range.mp hs, hr.symm⟩
  · intro h
    obtain ⟨s, hs, hr⟩ := h
    exact ⟨s, List.mem_range.mpr hs, hr.symm⟩

/-- Zeta-expanded form of `break_caesar_frequency`. -/
theorem break_caesar_frequency_def (ct : List Char) (lang : Lang) :
    break_caesar_frequency ct lang =
      (((candidates ct lang).foldl scanStep (0, none, [])).2.2,
       ((candidates ct lang).foldl scanStep (0, none, [])).1,
       if (pySplit ((candidates ct lang).foldl scanStep (0, none, [])).2.2).isEmpty then 0
       else (((isortRecs (candidates ct lang)).headD defaultRec).words : ℚ) /
         ((pySplit ((candidates ct lang).foldl scanStep (0, none, [])).2.2).length : ℚ) *
           100) := rfl

/-- C5: `break_caesar_frequency` returns the shift in `[0, 25]` minimising
the combined score `chiSquared − 10·wordCount` (the `comb` field of the
candidate record), ties broken by the lowest shift reached first in the
ascending scan; and the returned confidence is the returned decryption's
dictionary-word count over its whitespace token count times 100, or 0 when
it has no tokens. -/
theorem claim_C5_break_frequency (ct : List Char) (lang : Lang) :
    (break_caesar_frequency ct lang).2.1 < 26 ∧
    (∀ s, s < 26 →
      scoreLtB (candAt ct lang s).comb
        (candAt ct lang (break_caesar_frequency ct lang).2.1).comb = false) ∧
    (∀ s, s < (break_caesar_frequency ct lang).2.1 →
      scoreLtB (candAt ct lang (break_caesar_frequency ct lang).2.1).comb
        (candAt ct lang s).comb = true) ∧
    (break_caesar_frequency ct lang).2.2 =
      (if (pySplit (break_caesar_frequency ct lang).1).isEmpty then 0
       else (count_dictionary_words (break_caesar_frequency ct lang).1 lang : ℚ) /
         ((pySplit (break_caesar_frequency ct lang).1).length : ℚ) * 100) := by
  obtain ⟨hA, hB, hC⟩ := scan_spec (candidates ct lang) (0, none, [])
  rw [break_caesar_frequency_def]
  dsimp only
  rcases hC with heq | ⟨k, hk, heq, hsc, hprev⟩
  · have hnone : ((candidates ct lang).foldl scanStep (0, none, [])).2.1 = none := by
      rw [heq]
    have hall : ∀ s, s < 26 → (candAt ct lang s).comb = none := by
      intro s hs
      have := hA (candAt ct lang s) (candAt_mem ct lang s hs)
      rw [hnone] at this
      exact (scoreLtB_none_right _).mp this
    have hshift : ((candidates ct lang).foldl scanStep (0, none, [])).1 = 0 := by
      rw [heq]
    have htext : ((candidates ct lang).foldl scanStep (0, none, [])).2.2 = [] := by
      rw [heq]
    refine ⟨by rw [hshift]; omega, ?_, ?_, ?_⟩
    · intro s hs
      rw [hshift, hall s hs, hall 0 (by omega)]
      rfl
    · intro s hs
      rw [hshift] at hs
      omega
    · rw [htext]
      have hempty : (pySplit ([] : List Char)).isEmpty = true := rfl
      rw [if_pos hempty, if_pos hempty]
  · rw [candidates_getD ct lang k (by rwa [candidates_length ct lang] at hk)] at heq
    have hshift : ((candidates ct lang).foldl scanStep (0, none, [])).1 = k := by
      rw [heq]
      rfl
    have hscore : ((candidates ct lang).foldl scanStep (0, none, [])).2.1 =
        (candAt ct lang k).comb := by
      rw [heq]
    have htext : ((candidates ct lang).foldl scanStep (0, none, [])).2.2 =
        (candAt ct lang k).text := by
      rw [heq]
    have hk26 : k < 26 := by rwa [candidates_length ct lang] at hk
    refine ⟨by rw [hshift]; exact hk26, ?_, ?_, ?_⟩
    · intro s hs
      rw [hshift]
      have := hA (candAt ct lang s) (candAt_mem ct lang s hs)
      rwa [hscore] at this
    · intro s hs
      rw [hshift] at hs
      rw [hshift]
      have := hprev s hs
      rw [hscore] at this
      rwa [candidates_getD ct lang s (by omega)] at this
    · rw [htext]
      by_cases htok : (pySplit (candAt ct lang k).text).isEmpty = true
      · rw [if_pos htok, if_pos htok]
      · rw [if_neg htok, if_neg htok]
        obtain ⟨k2, hk2, hhead, hmin, hprev2⟩ :=
          isortRecs_head_spec (candidates ct lang)
            (by
              intro hnil
              have := candidates_length ct lang
              rw [hnil] at this
              simp at this)
        have hk2' : k2 < 26 := by rwa [candidates_length ct lang] at hk2
        rw [candidates_getD ct lang k2 hk2'] at hhead
        have hkk : k2 = k := by
          rcases lt_trichotomy k2 k with hlt | heqk | hgt
          · exfalso
            have h1 := hprev k2 hlt
            rw [hscore, candidates_getD ct lang k2 hk2'] at h1
            have h2 := hmin (candAt ct lang k) (candAt_mem ct lang k hk26)
            rw [hhead] at h2
            rw [h2] at h1
            exact absurd h1 (by simp)
          · exact heqk
          · exfalso
            have h1 := hprev2 k hgt
            rw [hhead, candidates_getD ct lang k (by omega)] at h1
            have h2 := hA (candAt ct lang k2) (candAt_mem ct lang k2 hk2')
            rw [hscore] at h2
            rw [h2] at h1
            exact absurd h1 (by simp)
        rw [hkk] at hhead
        rw [hhead]
        rfl

/-- Witness for C5 at the ciphertext "KHOOR" and shift 3. -/
theorem claim_C5_witness :
    (3 < 26) ∧
      scoreLtB (candAt "KHOOR".toList Lang.english 3).comb
        (candAt "KHOOR".toList Lang.english
          (break_caesar_frequency "KHOOR".toList Lang.english).2.1).comb = false :=
  ⟨by decide,
    (claim_C5_break_frequency "KHOOR".toList Lang.english).2.1 3 (by decide)⟩

/-- C9: the cryptanalysis layer never raises: the frequency scorer returns
`inf` (`none`) on letter-free text instead of dividing by zero, the breaker
returns confidence 0 whenever its best decryption has no whitespace tokens,
and breaking the empty ciphertext returns the triple `("", 0, 0)`. -/
theorem claim_C9_cryptanalysis_total (lang : Lang) :
    (∀ text : List Char, ((text.map pyToUpper).filter pyIsAlpha).length = 0 →
      calculate_frequency_score text lang = none) ∧
    (∀ ct : List Char, (pySplit (break_caesar_frequency ct lang).1).isEmpty = true →
      (break_caesar_frequency ct lang).2.2 = 0) ∧
    break_caesar_frequency [] lang = ([], 0, 0) := by
  refine ⟨?_, ?_, ?_⟩
  · intro text h
    unfold calculate_frequency_score
    rw [if_pos h]
  · intro ct h
    rw [break_caesar_frequency_def] at h ⊢
    dsimp only at h ⊢
    rw [if_pos h]
  · cases lang <;> decide

/-- Witness for C9 at the letter-free text "12 3!". -/
theorem claim_C9_witness :
    ((("12 3!".toList.map pyToUpper).filter pyIsAlpha).length = 0) ∧
      calculate_frequency_score "12 3!".toList Lang.english = none :=
  ⟨by decide,
    (claim_C9_cryptanalysis_total Lang.english).1 "12 3!".toList (by decide)⟩
